import Mathlib

/-!
Verification development for the ORigaMi core: a shallow embedding of the
dialect-aware SQL builder (`internal/sqlbuilder/builder.go`) and of the
reflection-based model-metadata engine (package `reflect`), together with
theorems settling the frozen specification claims.

SQL text is modelled as `List Char`; Go byte strings are ASCII in every
claim under consideration.  Go maps are modelled as association lists with
overwrite-on-insert (`mapUpsert`); where Go map iteration order matters the
theorems quantify over permutations.
-/

namespace Origami

/-! ### Basic string helpers (models of the Go `strings` functions used) -/

/-- The characters of a string literal, the text representation used throughout. -/
def str (s : String) : List Char := s.data

/-- Model of `strings.Split(l, sep)` for a one-character separator:
always returns `count sep l + 1` parts, empty parts included. -/
def splitOnChar (sep : Char) : List Char → List (List Char)
  | [] => [[]]
  | c :: rest =>
    let r := splitOnChar sep rest
    if c = sep then [] :: r
    else
      match r with
      | [] => [[c]]
      | h :: t => (c :: h) :: t

/-- Model of `strings.Contains(l, pat)`. -/
def containsSub (pat : List Char) : List Char → Bool
  | [] => pat.isEmpty
  | c :: rest => pat.isPrefixOf (c :: rest) || containsSub pat rest

/-- Number of positions of `l` at which `pat` occurs (counts every occurrence). -/
def countSub (pat : List Char) : List Char → Nat
  | [] => if pat.isEmpty then 1 else 0
  | c :: rest => (if pat.isPrefixOf (c :: rest) then 1 else 0) + countSub pat rest

/-- First position of `l` at which `pat` occurs. -/
def indexOfSub (pat : List Char) : List Char → Option Nat
  | [] => if pat.isEmpty then some 0 else none
  | c :: rest =>
    if pat.isPrefixOf (c :: rest) then some 0
    else (indexOfSub pat rest).map (· + 1)

/-- Model of `strings.ToUpper` on ASCII text. -/
def toUpperL (l : List Char) : List Char := l.map Char.toUpper

/-- ASCII white space, the fragment of `unicode.IsSpace` relevant here. -/
def isGoSpace (c : Char) : Bool :=
  c = ' ' || c = '\t' || c = '\n' || c = '\x0b' || c = '\x0c' || c = '\r'

/-- Model of `strings.TrimSpace` on ASCII text: drop leading and trailing space. -/
def trimSpace (l : List Char) : List Char :=
  ((l.dropWhile isGoSpace).reverse.dropWhile isGoSpace).reverse

/-- Split on white space, dropping empty parts; model of `strings.Fields`. -/
def goFieldsSplitAux : List Char → List (List Char)
  | [] => [[]]
  | c :: rest =>
    let r := goFieldsSplitAux rest
    if isGoSpace c then [] :: r
    else
      match r with
      | [] => [[c]]
      | h :: t => (c :: h) :: t

def goFieldsSplit (l : List Char) : List (List Char) :=
  (goFieldsSplitAux l).filter (fun p => !p.isEmpty)

/-- Model of `strings.HasSuffix`. -/
def hasSuffixL (l suf : List Char) : Bool := suf.isSuffixOf l

/-- Decimal digits of a natural number. -/
def natChars (n : Nat) : List Char := Nat.toDigits 10 n

/-- Rendering of a Go `int64` by `fmt.Sprintf("%d", ·)`. -/
def intChars (i : Int) : List Char :=
  if i < 0 then '-' :: natChars i.natAbs else natChars i.toNat

/-- Go map updates: replace the value when the key is present, append otherwise. -/
def mapUpsert {α : Type} (m : List (List Char × α)) (k : List Char) (v : α) :
    List (List Char × α) :=
  match m with
  | [] => [(k, v)]
  | (k0, v0) :: rest =>
    if k0 = k then (k0, v) :: rest else (k0, v0) :: mapUpsert rest k v

/-- Go map lookup. -/
def mapLookup {α : Type} (m : List (List Char × α)) (k : List Char) : Option α :=
  match m with
  | [] => none
  | (k0, v0) :: rest => if k0 = k then some v0 else mapLookup rest k

/-! ### Argument values

Builder arguments are `interface{}` values in Go; the builder never inspects
them, so a small closed universe suffices. -/

inductive GoAny : Type where
  | intV : Int → GoAny
  | strV : List Char → GoAny
  | boolV : Bool → GoAny
deriving DecidableEq

/-- Error conditions of the core, named by the spec taxonomy. -/
inductive ErrKind : Type where
  | modelKind
  | notAddressable
  | incompatibleType
  | sectionNotFound
  | validation
deriving DecidableEq

/-! ### Dialect strategies (`Dialect` interface and its three implementations) -/

structure Dialect : Type where
  placeholder : Nat → List Char
  quote : List Char → List Char
  escapeLike : List Char → List Char
  formatBool : Bool → List Char
  limitOffset : Int → Int → List Char
  driverName : List Char
  insertReturning : List Char → List Char → List Char
  supportUpsert : Bool

/-- Quote an identifier with quote character `q`, quoting each dot-separated
part independently when a dot is present (shared shape of the three `Quote`
implementations). -/
def quoteWith (q : Char) (identifier : List Char) : List Char :=
  if containsSub ['.'] identifier then
    List.intercalate ['.']
      ((splitOnChar '.' identifier).map (fun part => q :: part ++ [q]))
  else q :: identifier ++ [q]

/-- Shared shape of the three `EscapeLike` implementations: escape backslash,
percent and underscore with a backslash. -/
def escapeLikeGo (l : List Char) : List Char :=
  l.flatMap (fun c =>
    if c = '\\' then ['\\', '\\']
    else if c = '%' then ['\\', '%']
    else if c = '_' then ['\\', '_']
    else [c])

/-- Model of `PostgresDialect.LimitOffset`: `LIMIT n` then `OFFSET m`, each omitted
when negative. -/
def pgLimitOffset (limit offset : Int) : List Char :=
  (if limit ≥ 0 then str " LIMIT " ++ intChars limit else []) ++
    (if offset ≥ 0 then str " OFFSET " ++ intChars offset else [])

/-- Model of `MySQLDialect.LimitOffset`: `LIMIT offset, limit`, with the maximum
unsigned sentinel when only an offset is given. -/
def myLimitOffset (limit offset : Int) : List Char :=
  if limit ≥ 0 then
    if offset ≥ 0 then str " LIMIT " ++ intChars offset ++ str ", " ++ intChars limit
    else str " LIMIT " ++ intChars limit
  else if offset ≥ 0 then
    str " LIMIT " ++ intChars offset ++ str ", 18446744073709551615"
  else []

def PostgresDialect : Dialect where
  placeholder := fun pos => '$' :: natChars pos
  quote := quoteWith '"'
  escapeLike := escapeLikeGo
  formatBool := fun b => if b then str "TRUE" else str "FALSE"
  limitOffset := pgLimitOffset
  driverName := str "postgres"
  insertReturning := fun _ pkColumn => str " RETURNING " ++ quoteWith '"' pkColumn
  supportUpsert := true

def MySQLDialect : Dialect where
  placeholder := fun _ => ['?']
  quote := quoteWith '`'
  escapeLike := escapeLikeGo
  formatBool := fun b => if b then ['1'] else ['0']
  limitOffset := myLimitOffset
  driverName := str "mysql"
  insertReturning := fun _ _ => []
  supportUpsert := true

def SQLiteDialect : Dialect where
  placeholder := fun _ => ['?']
  quote := quoteWith '"'
  escapeLike := escapeLikeGo
  formatBool := fun b => if b then ['1'] else ['0']
  limitOffset := pgLimitOffset
  driverName := str "sqlite3"
  insertReturning := fun _ _ => []
  supportUpsert := true

/-! ### Builder state (`Builder` struct) -/

structure Builder : Type where
  dialect : Dialect
  buffer : List Char
  args : List GoAny
  argPosition : Nat
  sections : List (List Char × Nat)

def NewBuilder (d : Dialect) : Builder :=
  { dialect := d, buffer := [], args := [], argPosition := 0, sections := [] }

namespace Builder

def Reset (b : Builder) : Builder :=
  { b with buffer := [], args := [], argPosition := 0, sections := [] }

def SQL (b : Builder) : List Char := b.buffer

def Append (b : Builder) (s : List Char) : Builder :=
  { b with buffer := b.buffer ++ s }

def AppendQuoted (b : Builder) (identifier : List Char) : Builder :=
  { b with buffer := b.buffer ++ b.dialect.quote identifier }

def AppendPlaceholder (b : Builder) : Builder :=
  { b with
    argPosition := b.argPosition + 1
    buffer := b.buffer ++ b.dialect.placeholder (b.argPosition + 1) }

def Arg (b : Builder) (v : GoAny) : Builder :=
  { b with args := b.args ++ [v] }

def AppendWithArgs (b : Builder) (sql : List Char) (args : List GoAny) : Builder :=
  { b with buffer := b.buffer ++ sql, args := b.args ++ args }

/-- The `for i, part := range parts` loop of `AppendWithPlaceholders`:
write each part, with a freshly numbered placeholder between parts. -/
def appendParts (b : Builder) : List (List Char) → Builder
  | [] => b
  | [p] => { b with buffer := b.buffer ++ p }
  | p :: rest =>
    appendParts
      { b with
        argPosition := b.argPosition + 1
        buffer := b.buffer ++ p ++ b.dialect.placeholder (b.argPosition + 1) }
      rest

def AppendWithPlaceholders (b : Builder) (sql : List Char) (args : List GoAny) :
    Builder :=
  let b1 := b.appendParts (splitOnChar '?' sql)
  { b1 with args := b1.args ++ args }

def MarkSection (b : Builder) (name : List Char) : Builder :=
  { b with sections := mapUpsert b.sections name b.buffer.length }

/-- Model of `ReplaceSection`: splice `content` at the marked offset, or fail with
`SectionNotFoundError` leaving the builder untouched. -/
def ReplaceSection (b : Builder) (name content : List Char) :
    Builder × Option ErrKind :=
  match mapLookup b.sections name with
  | none => (b, some ErrKind.sectionNotFound)
  | some pos =>
    ({ b with buffer := b.buffer.take pos ++ content ++ b.buffer.drop pos }, none)

def Where (b : Builder) (condition : List Char) (args : List GoAny) : Builder :=
  let hasWhere := containsSub (str " WHERE ") (toUpperL b.buffer)
  if hasWhere then (b.Append (str " AND ")).AppendWithPlaceholders condition args
  else (b.Append (str " WHERE ")).AppendWithPlaceholders condition args

/-- The per-column body of the `Select` loop. -/
def selectCols (b : Builder) : List (List Char) → Bool → Builder
  | [], _ => b
  | col :: rest, isFirst =>
    let b1 := if isFirst then b else b.Append (str ", ")
    let b2 :=
      if containsSub [' '] col || containsSub ['('] col then b1.Append col
      else b1.AppendQuoted col
    selectCols b2 rest false

def Select (b : Builder) (columns : List (List Char)) : Builder :=
  let b1 := (b.Reset).Append (str "SELECT ")
  if columns.isEmpty then b1.Append (str "*")
  else selectCols b1 columns true

def From (b : Builder) (table : List Char) : Builder :=
  (b.Append (str " FROM ")).AppendQuoted table

def Join (b : Builder) (joinType table condition : List Char) : Builder :=
  ((((b.Append (str " ")).Append joinType).Append (str " JOIN ")).AppendQuoted
      table |>.Append (str " ON ")).Append condition

def orderByCols (b : Builder) : List (List Char) → Bool → Builder
  | [], _ => b
  | col :: rest, isFirst =>
    let b1 := if isFirst then b else b.Append (str ", ")
    let b2 :=
      if hasSuffixL col (str " DESC") || hasSuffixL col (str " desc") then
        (b1.AppendQuoted ((goFieldsSplit col).headD [])).Append (str " DESC")
      else if hasSuffixL col (str " ASC") || hasSuffixL col (str " asc") then
        (b1.AppendQuoted ((goFieldsSplit col).headD [])).Append (str " ASC")
      else b1.AppendQuoted col
    orderByCols b2 rest false

def OrderBy (b : Builder) (columns : List (List Char)) : Builder :=
  if columns.isEmpty then b
  else orderByCols (b.Append (str " ORDER BY ")) columns true

def groupByCols (b : Builder) : List (List Char) → Bool → Builder
  | [], _ => b
  | col :: rest, isFirst =>
    let b1 := if isFirst then b else b.Append (str ", ")
    let b2 := if containsSub ['('] col then b1.Append col else b1.AppendQuoted col
    groupByCols b2 rest false

def GroupBy (b : Builder) (columns : List (List Char)) : Builder :=
  if columns.isEmpty then b
  else groupByCols (b.Append (str " GROUP BY ")) columns true

def Having (b : Builder) (condition : List Char) (args : List GoAny) : Builder :=
  (b.Append (str " HAVING ")).AppendWithPlaceholders condition args

def Limit (b : Builder) (limit : Int) : Builder :=
  b.Append (b.dialect.limitOffset limit (-1))

def Offset (b : Builder) (offset : Int) : Builder :=
  b.Append (b.dialect.limitOffset (-1) offset)

def LimitOffset (b : Builder) (limit offset : Int) : Builder :=
  b.Append (b.dialect.limitOffset limit offset)

def Insert (b : Builder) (table : List Char) : Builder :=
  ((b.Reset).Append (str "INSERT INTO ")).AppendQuoted table

def columnsList (b : Builder) : List (List Char) → Bool → Builder
  | [], _ => b
  | col :: rest, isFirst =>
    let b1 := if isFirst then b else b.Append (str ", ")
    columnsList (b1.AppendQuoted col) rest false

def Columns (b : Builder) (columns : List (List Char)) : Builder :=
  (columnsList (b.Append (str " (")) columns true).Append (str ")")

def valuesList (b : Builder) : List GoAny → Bool → Builder
  | [], _ => b
  | v :: rest, isFirst =>
    let b1 := if isFirst then b else b.Append (str ", ")
    valuesList ((b1.AppendPlaceholder).Arg v) rest false

def Values (b : Builder) (vs : List GoAny) : Builder :=
  (valuesList (b.Append (str " VALUES (")) vs true).Append (str ")")

def multipleRows (b : Builder) : List (List GoAny) → Bool → Builder
  | [], _ => b
  | row :: rest, isFirst =>
    let b1 := if isFirst then b else b.Append (str ", ")
    let b2 := (valuesList (b1.Append (str "(")) row true).Append (str ")")
    multipleRows b2 rest false

def MultipleValues (b : Builder) (rows : List (List GoAny)) : Builder :=
  multipleRows (b.Append (str " VALUES ")) rows true

def Update (b : Builder) (table : List Char) : Builder :=
  ((b.Reset).Append (str "UPDATE ")).AppendQuoted table

def Set (b : Builder) (column : List Char) (value : GoAny) : Builder :=
  let b1 :=
    if !containsSub (str " SET ") (toUpperL b.SQL) then b.Append (str " SET ")
    else b.Append (str ", ")
  (((b1.AppendQuoted column).Append (str " = ")).AppendPlaceholder).Arg value

def setMapEntries (b : Builder) : List (List Char × GoAny) → Bool → Builder
  | [], _ => b
  | (column, value) :: rest, isFirst =>
    let b1 := if isFirst then b else b.Append (str ", ")
    setMapEntries ((((b1.AppendQuoted column).Append (str " = ")).AppendPlaceholder).Arg value)
      rest false

def SetMap (b : Builder) (values : List (List Char × GoAny)) : Builder :=
  let sql := b.SQL
  let b1 :=
    if !containsSub (str " SET ") (toUpperL sql) then b.Append (str " SET ") else b
  setMapEntries b1 values (!containsSub ['='] sql)

def Delete (b : Builder) : Builder :=
  (b.Reset).Append (str "DELETE")

def DeleteFrom (b : Builder) (table : List Char) : Builder :=
  ((b.Reset).Append (str "DELETE FROM ")).AppendQuoted table

def Returning (b : Builder) (column : List Char) : Builder :=
  let sql := b.SQL
  if (str "INSERT").isPrefixOf sql then
    b.Append (b.dialect.insertReturning sql column)
  else if b.dialect.supportUpsert then
    (b.Append (str " RETURNING ")).AppendQuoted column
  else b

def Union (b : Builder) (otherSQL : List Char) (otherArgs : List GoAny) : Builder :=
  (b.Append (str " UNION ")).AppendWithArgs otherSQL otherArgs

def UnionAll (b : Builder) (otherSQL : List Char) (otherArgs : List GoAny) : Builder :=
  (b.Append (str " UNION ALL ")).AppendWithArgs otherSQL otherArgs

def Count (b : Builder) (column : List Char) : Builder :=
  let b1 := b.Reset
  if column = [] || column = ['*'] then b1.Append (str "SELECT COUNT(*)")
  else ((b1.Append (str "SELECT COUNT(")).AppendQuoted column).Append (str ")")

def CreateTable (b : Builder) (table : List Char) (ifNotExists : Bool) : Builder :=
  let b1 := (b.Reset).Append (str "CREATE TABLE ")
  let b2 := if ifNotExists then b1.Append (str "IF NOT EXISTS ") else b1
  b2.AppendQuoted table

def appendConstraints (b : Builder) : List (List Char) → Builder
  | [] => b
  | c :: rest => appendConstraints ((b.Append (str " ")).Append c) rest

def AddColumn (b : Builder) (column dataType : List Char)
    (constraints : List (List Char)) : Builder :=
  let b1 :=
    if containsSub ['('] b.SQL then b.Append (str ", ") else b.Append (str " (")
  appendConstraints (((b1.AppendQuoted column).Append (str " ")).Append dataType)
    constraints

def PrimaryKey (b : Builder) (columns : List (List Char)) : Builder :=
  (columnsList (b.Append (str ", PRIMARY KEY (")) columns true).Append (str ")")

def UniqueKey (b : Builder) (name : List Char) (columns : List (List Char)) : Builder :=
  (columnsList
      (((b.Append (str ", CONSTRAINT ")).AppendQuoted name).Append (str " UNIQUE ("))
      columns true).Append
    (str ")")

def ForeignKey (b : Builder) (name column refTable refColumn onDelete onUpdate : List Char) :
    Builder :=
  let b1 :=
    (((((((((b.Append (str ", CONSTRAINT ")).AppendQuoted name).Append
      (str " FOREIGN KEY (")).AppendQuoted column).Append (str ")")).Append
      (str " REFERENCES ")).AppendQuoted refTable).Append (str "(")).AppendQuoted
      refColumn).Append (str ")")
  let b2 := if onDelete ≠ [] then (b1.Append (str " ON DELETE ")).Append onDelete else b1
  if onUpdate ≠ [] then (b2.Append (str " ON UPDATE ")).Append onUpdate else b2

def CloseParenthesis (b : Builder) : Builder := b.Append (str ")")

def AlterTable (b : Builder) (table : List Char) : Builder :=
  ((b.Reset).Append (str "ALTER TABLE ")).AppendQuoted table

def AddColumnToTable (b : Builder) (column dataType : List Char)
    (constraints : List (List Char)) : Builder :=
  appendConstraints
    (((b.Append (str " ADD COLUMN ")).AppendQuoted column).Append (str " ") |>.Append
      dataType)
    constraints

def RenameTable (b : Builder) (newName : List Char) : Builder :=
  (b.Append (str " RENAME TO ")).AppendQuoted newName

def DropColumn (b : Builder) (column : List Char) : Builder :=
  (b.Append (str " DROP COLUMN ")).AppendQuoted column

def CreateIndex (b : Builder) (name table : List Char) (unique : Bool) : Builder :=
  let b1 := (b.Reset).Append (str "CREATE ")
  let b2 := if unique then b1.Append (str "UNIQUE ") else b1
  (((b2.Append (str "INDEX ")).AppendQuoted name).Append (str " ON ")).AppendQuoted table

def indexColsList (b : Builder) : List (List Char) → Bool → Builder
  | [], _ => b
  | col :: rest, isFirst =>
    let b1 := if isFirst then b else b.Append (str ", ")
    let parts := goFieldsSplit col
    let b2 := b1.AppendQuoted (parts.headD [])
    let b3 :=
      if parts.length > 1 then (b2.Append (str " ")).Append (parts.getD 1 [])
      else b2
    indexColsList b3 rest false

def IndexColumns (b : Builder) (columns : List (List Char)) : Builder :=
  (indexColsList (b.Append (str " (")) columns true).Append (str ")")

def DropTable (b : Builder) (table : List Char) (ifExists : Bool) : Builder :=
  let b1 := (b.Reset).Append (str "DROP TABLE ")
  let b2 := if ifExists then b1.Append (str "IF EXISTS ") else b1
  b2.AppendQuoted table

def DropIndex (b : Builder) (name : List Char) (ifExists : Bool) : Builder :=
  let b1 := (b.Reset).Append (str "DROP INDEX ")
  let b2 := if ifExists then b1.Append (str "IF EXISTS ") else b1
  b2.AppendQuoted name

def BeginTransaction (b : Builder) : Builder := (b.Reset).Append (str "BEGIN")

def CommitTransaction (b : Builder) : Builder := (b.Reset).Append (str "COMMIT")

def RollbackTransaction (b : Builder) : Builder := (b.Reset).Append (str "ROLLBACK")

def Raw (b : Builder) (sql : List Char) : Builder := b.Append sql

def RawWithArgs (b : Builder) (sql : List Char) (args : List GoAny) : Builder :=
  b.AppendWithArgs sql args

def WithArgs (b : Builder) (args : List GoAny) : Builder :=
  { b with args := b.args ++ args }

def Args (b : Builder) : List GoAny := b.args

def ToSQL (b : Builder) : List Char × List GoAny := (b.SQL, b.Args)

def Subquery (b : Builder) (sub : Builder) (aliasName : List Char) : Builder :=
  let b1 := ((b.Append (str "(")).Append sub.SQL).Append (str ")")
  let b2 := if aliasName ≠ [] then (b1.Append (str " AS ")).AppendQuoted aliasName else b1
  { b2 with args := b2.args ++ sub.args }

def ExistsSub (b : Builder) (sub : Builder) : Builder :=
  let b1 := ((b.Append (str "EXISTS (")).Append sub.SQL).Append (str ")")
  { b1 with args := b1.args ++ sub.args }

def NotExistsSub (b : Builder) (sub : Builder) : Builder :=
  let b1 := ((b.Append (str "NOT EXISTS (")).Append sub.SQL).Append (str ")")
  { b1 with args := b1.args ++ sub.args }

end Builder

def NewPostgresBuilder : Builder := NewBuilder PostgresDialect

def NewMySQLBuilder : Builder := NewBuilder MySQLDialect

def NewSQLiteBuilder : Builder := NewBuilder SQLiteDialect

/-! ### Sequences of fluent builder calls

A deep embedding of the public fluent interface: one constructor per
exported mutating method, executed against a `Builder` state. -/

inductive BOp : Type where
  | select (columns : List (List Char))
  | fromT (table : List Char)
  | join (joinType table condition : List Char)
  | whereC (condition : List Char) (args : List GoAny)
  | orderBy (columns : List (List Char))
  | groupBy (columns : List (List Char))
  | having (condition : List Char) (args : List GoAny)
  | limit (n : Int)
  | offset (n : Int)
  | limitOffset (n m : Int)
  | insert (table : List Char)
  | columns (cols : List (List Char))
  | values (vs : List GoAny)
  | multipleValues (rows : List (List GoAny))
  | update (table : List Char)
  | set (column : List Char) (value : GoAny)
  | setMap (entries : List (List Char × GoAny))
  | delete
  | deleteFrom (table : List Char)
  | returning (column : List Char)
  | union (otherSQL : List Char) (otherArgs : List GoAny)
  | unionAll (otherSQL : List Char) (otherArgs : List GoAny)
  | count (column : List Char)
  | createTable (table : List Char) (ifNotExists : Bool)
  | addColumn (column dataType : List Char) (constraints : List (List Char))
  | primaryKey (cols : List (List Char))
  | uniqueKey (name : List Char) (cols : List (List Char))
  | foreignKey (name column refTable refColumn onDelete onUpdate : List Char)
  | closeParenthesis
  | alterTable (table : List Char)
  | addColumnToTable (column dataType : List Char) (constraints : List (List Char))
  | renameTable (newName : List Char)
  | dropColumn (column : List Char)
  | createIndex (name table : List Char) (unique : Bool)
  | indexColumns (cols : List (List Char))
  | dropTable (table : List Char) (ifExists : Bool)
  | dropIndex (name : List Char) (ifExists : Bool)
  | beginTransaction
  | commitTransaction
  | rollbackTransaction
  | raw (sql : List Char)
  | rawWithArgs (sql : List Char) (args : List GoAny)
  | withArgs (args : List GoAny)
  | appendOp (s : List Char)
  | appendQuotedOp (identifier : List Char)
  | appendPlaceholderOp
  | argOp (v : GoAny)
  | appendWithArgsOp (sql : List Char) (args : List GoAny)
  | appendWithPlaceholdersOp (sql : List Char) (args : List GoAny)
  | markSection (name : List Char)
  | resetOp
  | subquery (sub : Builder) (aliasName : List Char)
  | existsSub (sub : Builder)
  | notExistsSub (sub : Builder)

/-- Execute one fluent call against the builder state. -/
def execOp (b : Builder) : BOp → Builder
  | .select cols => b.Select cols
  | .fromT t => b.From t
  | .join jt t c => b.Join jt t c
  | .whereC c a => b.Where c a
  | .orderBy cols => b.OrderBy cols
  | .groupBy cols => b.GroupBy cols
  | .having c a => b.Having c a
  | .limit n => b.Limit n
  | .offset n => b.Offset n
  | .limitOffset n m => b.LimitOffset n m
  | .insert t => b.Insert t
  | .columns cols => b.Columns cols
  | .values vs => b.Values vs
  | .multipleValues rows => b.MultipleValues rows
  | .update t => b.Update t
  | .set c v => b.Set c v
  | .setMap kvs => b.SetMap kvs
  | .delete => b.Delete
  | .deleteFrom t => b.DeleteFrom t
  | .returning c => b.Returning c
  | .union s a => b.Union s a
  | .unionAll s a => b.UnionAll s a
  | .count c => b.Count c
  | .createTable t ine => b.CreateTable t ine
  | .addColumn c dt cs => b.AddColumn c dt cs
  | .primaryKey cols => b.PrimaryKey cols
  | .uniqueKey n cols => b.UniqueKey n cols
  | .foreignKey n c rt rc od ou => b.ForeignKey n c rt rc od ou
  | .closeParenthesis => b.CloseParenthesis
  | .alterTable t => b.AlterTable t
  | .addColumnToTable c dt cs => b.AddColumnToTable c dt cs
  | .renameTable n => b.RenameTable n
  | .dropColumn c => b.DropColumn c
  | .createIndex n t u => b.CreateIndex n t u
  | .indexColumns cols => b.IndexColumns cols
  | .dropTable t ie => b.DropTable t ie
  | .dropIndex n ie => b.DropIndex n ie
  | .beginTransaction => b.BeginTransaction
  | .commitTransaction => b.CommitTransaction
  | .rollbackTransaction => b.RollbackTransaction
  | .raw s => b.Raw s
  | .rawWithArgs s a => b.RawWithArgs s a
  | .withArgs a => b.WithArgs a
  | .appendOp s => b.Append s
  | .appendQuotedOp i => b.AppendQuoted i
  | .appendPlaceholderOp => b.AppendPlaceholder
  | .argOp v => b.Arg v
  | .appendWithArgsOp s a => b.AppendWithArgs s a
  | .appendWithPlaceholdersOp s a => b.AppendWithPlaceholders s a
  | .markSection n => b.MarkSection n
  | .resetOp => b.Reset
  | .subquery sub al => b.Subquery sub al
  | .existsSub sub => b.ExistsSub sub
  | .notExistsSub sub => b.NotExistsSub sub

/-- Run a sequence of fluent calls from a given state. -/
def runOpsFrom (b : Builder) (ops : List BOp) : Builder := ops.foldl execOp b

/-- Run a sequence of fluent calls on a fresh builder for dialect `d`. -/
def runOps (d : Dialect) (ops : List BOp) : Builder := runOpsFrom (NewBuilder d) ops

/-- Whether a fluent call is `MarkSection` for the given section name. -/
def BOp.marksName (op : BOp) (name : List Char) : Bool :=
  match op with
  | .markSection n => n == name
  | _ => false

/-- The fluent calls that keep placeholders paired with arguments: every
statement and clause constructor, except the raw-argument and raw-placeholder
escape hatches (`Arg`, `WithArgs`, `AppendWithArgs`, `RawWithArgs`, `Union`,
`UnionAll`, `Subquery`, `Exists`, `NotExists`, bare `AppendPlaceholder`), and
with the `?`-rewriting calls restricted to fragments whose `?` count equals
the number of supplied arguments. -/
def BOp.balanced : BOp → Bool
  | .whereC cond args => cond.count '?' == args.length
  | .having cond args => cond.count '?' == args.length
  | .appendWithPlaceholdersOp sql args => sql.count '?' == args.length
  | .union _ _ => false
  | .unionAll _ _ => false
  | .rawWithArgs _ _ => false
  | .withArgs _ => false
  | .argOp _ => false
  | .appendPlaceholderOp => false
  | .appendWithArgsOp _ _ => false
  | .subquery _ _ => false
  | .existsSub _ => false
  | .notExistsSub _ => false
  | _ => true

/-! ### Slice aliasing model for `Args`

`Args` copies the internal argument slice (`make` + `copy`) before returning
it.  To state the frame property, slices live in an explicit heap: a list of
slice contents addressed by allocation index. -/

/-- Read the slice stored at reference `r`. -/
def heapRead (h : List (List GoAny)) (r : Nat) : List GoAny := h.getD r []

/-- Write element `i` of the slice stored at reference `r`. -/
def heapWrite (h : List (List GoAny)) (r i : Nat) (v : GoAny) : List (List GoAny) :=
  h.set r ((h.getD r []).set i v)

/-- Model of `Builder.Args` with explicit aliasing: allocate a fresh slice, copy the
builder's argument slice into it, and return the fresh reference; the
builder's own reference `argsRef` is untouched. -/
def ArgsAlloc (h : List (List GoAny)) (argsRef : Nat) : List (List GoAny) × Nat :=
  (h ++ [heapRead h argsRef], h.length)

/-! ### Tag parser (`ParseTagSettings`, `HasTagOption`) -/

/-- Model of `strings.SplitN(l, sep, 2)`: the part before the first separator,
and optionally the rest. -/
def splitFirst (sep : Char) : List Char → List Char × Option (List Char)
  | [] => ([], none)
  | c :: rest =>
    if c = sep then ([], some rest)
    else
      let r := splitFirst sep rest
      (c :: r.1, r.2)

/-- Model of `ParseTagSettings`: semicolon-separated segments, `key:value` or bare key,
trimmed, empty segments and empty keys dropped, later keys overwriting. -/
def ParseTagSettings (tag : List Char) : List (List Char × List Char) :=
  (splitOnChar ';' tag).foldl
    (fun settings part =>
      let part := trimSpace part
      if part.isEmpty then settings
      else
        let keyValue := splitFirst ':' part
        let key := trimSpace keyValue.1
        if key.isEmpty then settings
        else
          let value := match keyValue.2 with
            | some v => trimSpace v
            | none => []
          mapUpsert settings key value)
    []

/-- Model of `HasTagOption`: some semicolon-separated segment trims to exactly the
option. -/
def HasTagOption (tag opt : List Char) : Bool :=
  (splitOnChar ';' tag).any (fun part => trimSpace part == opt)

/-! ### Naming converter (`ToSnakeCase`) -/

def optIsUpper : Option Char → Bool
  | some c => c.isUpper
  | none => false

def optIsLower : Option Char → Bool
  | some c => c.isLower
  | none => false

def optToLower : Option Char → Char
  | some c => c.toLower
  | none => ' '

/-- The loop body of `ToSnakeCase`.  State: `s2`/`s1` are the characters at
byte positions `i-2`/`i-1` of the input, `prevLower` whether the previous
character was lower case, `res` the builder contents.  The second branch
re-writes the builder exactly as the source does: drop the last written
character and write an underscore followed by the lowered `s[i-1]`. -/
def ToSnakeCaseAux (s2 s1 : Option Char) (i : Nat) (prevLower : Bool) (res : List Char) :
    List Char → List Char
  | [] => res
  | r :: rest =>
    let isLower := r.isLower
    let res1 :=
      if 0 < i then
        if isLower = false ∧ prevLower = true then res ++ ['_'] else res
      else res
    let res2 :=
      if 0 < i then
        if isLower = true ∧ 1 < i ∧ prevLower = false ∧ optIsUpper s1 = true ∧
            2 < i ∧ optIsUpper s2 = true then
          res1.dropLast ++ ['_', optToLower s1]
        else res1
      else res1
    ToSnakeCaseAux s1 (some r) (i + 1) isLower (res2 ++ [r.toLower]) rest

/-- Model of `ToSnakeCase` on ASCII text (Go byte positions coincide with character
positions for the ASCII identifiers the contract covers). -/
def ToSnakeCase (s : List Char) : List Char :=
  if s.isEmpty then [] else ToSnakeCaseAux none none 0 false [] s

/-- The snake-case rule exactly as the claim words it: lower-case every
letter; underscore before an upper-case letter that follows a lower-case
letter; when a run of two or more upper-case letters is followed by a
lower-case letter, underscore before the last upper-case letter of the run
(that is, before an upper-case letter that follows an upper-case letter and
precedes a lower-case one). -/
def claimSnakeAux (prev : Option Char) : List Char → List Char
  | [] => []
  | c :: rest =>
    let under : Bool :=
      c.isUpper && (optIsLower prev || (optIsUpper prev && optIsLower rest.head?))
    (if under then ['_'] else []) ++ (c.toLower :: claimSnakeAux (some c) rest)

def claimSnake (s : List Char) : List Char := claimSnakeAux none s

/-- The amended snake-case rule: as the claim words it, except that the
run-of-upper-case underscore is only inserted when the letter receiving it
sits at position two or later (the source requires the following lower-case
letter to sit at byte index greater than two). -/
def amendedSnakeAux (i : Nat) (prev : Option Char) : List Char → List Char
  | [] => []
  | c :: rest =>
    let under : Bool :=
      c.isUpper &&
        (optIsLower prev || (optIsUpper prev && optIsLower rest.head? && decide (2 ≤ i)))
    (if under then ['_'] else []) ++ (c.toLower :: amendedSnakeAux (i + 1) (some c) rest)

def amendedSnake (s : List Char) : List Char := amendedSnakeAux 0 none s

/-- ASCII letters, the domain of the naming-converter contract: characters
that are exactly one of lower case and upper case (`Char.isLower` and
`Char.isUpper` hold precisely on ASCII `a`–`z` and `A`–`Z`). -/
def isAsciiLetter (c : Char) : Bool :=
  (c.isLower && !c.isUpper) || (c.isUpper && !c.isLower)

/-- Whether an optional character, when present, is an ASCII letter. -/
def optLetter : Option Char → Bool
  | some c => isAsciiLetter c
  | none => true

/-- The pending re-write of the `ToSnakeCase` builder: when the next input
character triggers the run-of-upper-case branch, the source retroactively
inserts an underscore before the last written character.  `fixRes` applies
that pending insertion to the builder contents, aligning the loop state with
the rule's one-character lookahead. -/
def fixRes (s2 s1 : Option Char) (i : Nat) (prevLower : Bool) (res : List Char) :
    List Char → List Char
  | [] => res
  | c :: _ =>
    if c.isLower = true ∧ 1 < i ∧ prevLower = false ∧ optIsUpper s1 = true ∧
        2 < i ∧ optIsUpper s2 = true then
      res.dropLast ++ ['_', optToLower s1]
    else res

/-! ### Model metadata engine (package `reflect`)

Go struct types are embedded as trees: a field carries its name, its
`origami` tag (the result of `sf.Tag.Lookup(TagKey)`, `none` when the tag is
absent), its `Anonymous` flag, whether it is exported (`PkgPath == ""`), and
its type. -/

mutual
inductive GoType : Type where
  | prim : List Char → GoType
  | ptr : GoType → GoType
  | strukt : List Char → GoFields → GoType
deriving DecidableEq

inductive GoFields : Type where
  | nil : GoFields
  | cons : GoField → GoFields → GoFields
deriving DecidableEq

inductive GoField : Type where
  | mk : List Char → Option (List Char) → Bool → Bool → GoType → GoField
deriving DecidableEq
end

def GoField.name : GoField → List Char
  | .mk n _ _ _ _ => n

def GoField.tag : GoField → Option (List Char)
  | .mk _ t _ _ _ => t

def GoField.anonymous : GoField → Bool
  | .mk _ _ a _ _ => a

def GoField.exported : GoField → Bool
  | .mk _ _ _ e _ => e

def GoField.typ : GoField → GoType
  | .mk _ _ _ _ t => t

/-- Model of `IndirectType`: dereference pointer types. -/
def IndirectType : GoType → GoType
  | .ptr t => IndirectType t
  | t => t

def isStruktB : GoType → Bool
  | .strukt _ _ => true
  | _ => false

mutual
def GoType.size : GoType → Nat
  | .prim _ => 1
  | .ptr t => t.size + 1
  | .strukt _ fs => fs.size + 1

def GoFields.size : GoFields → Nat
  | .nil => 1
  | .cons f rest => f.size + rest.size + 1

def GoField.size : GoField → Nat
  | .mk _ _ _ _ t => t.size + 1
end

/-- Dereferencing never grows the size measure (used for termination). -/
def indirectSizeLe : ∀ t : GoType, (IndirectType t).size ≤ t.size
  | .prim _ => Nat.le.refl
  | .ptr t1 => Nat.le_trans (indirectSizeLe t1) (Nat.le_succ _)
  | .strukt _ _ => Nat.le.refl

/-- A field's size measure in terms of its type's (used for termination). -/
def fieldSizeEq : ∀ f : GoField, GoField.size f = f.typ.size + 1
  | .mk _ _ _ _ _ => rfl

/-- Model of `ReferenceInfo`: parsed `references` relationship. -/
structure ReferenceInfo : Type where
  model : List Char
  field : List Char
  onDelete : List Char
  onUpdate : List Char
deriving DecidableEq

/-- Model of `FieldInfo`: one extracted field descriptor.  `rawTag` holds the
`origami` tag text (the Go source stores the whole struct-tag string; only
the `origami` part is observable through the engine). -/
structure FieldInfo : Type where
  name : List Char
  dbName : List Char
  typ : GoType
  index : List Nat
  isAnonymous : Bool
  isPrimaryKey : Bool
  isAutoIncrement : Bool
  isUnique : Bool
  isIndex : Bool
  isNotNull : Bool
  size : Int
  precision : Int
  scale : Int
  defaultVal : List Char
  rawTag : List Char
  tagSettings : List (List Char × List Char)
  referenced : Option ReferenceInfo
  isIgnored : Bool
  isReadOnly : Bool
  isWriteOnly : Bool
deriving DecidableEq

/-- Value of decimal digits. -/
def digitsVal (l : List Char) : Nat :=
  l.foldl (fun a c => a * 10 + (c.toNat - 48)) 0

/-- Model of `fmt.Sscanf(s, "%d", &x)`: skip leading space, optional sign,
then digits; on failure the target keeps its zero value. -/
def parseIntGo (l : List Char) : Int :=
  let l2 := l.dropWhile isGoSpace
  let signRest : Int × List Char :=
    match l2 with
    | '-' :: r => (-1, r)
    | '+' :: r => (1, r)
    | r => (1, r)
  let ds := signRest.2.takeWhile Char.isDigit
  if ds.isEmpty then 0 else signRest.1 * (digitsVal ds : Int)

/-- The tag-processing branch of the `ExtractFields` loop: build the
descriptor of a direct (non-embedded-struct) field sitting at declaration
position `i`. -/
def buildFieldInfo (f : GoField) (i : Nat) : FieldInfo :=
  let base : FieldInfo :=
    { name := f.name
      dbName := ToSnakeCase f.name
      typ := f.typ
      index := [i]
      isAnonymous := f.anonymous
      isPrimaryKey := false
      isAutoIncrement := false
      isUnique := false
      isIndex := false
      isNotNull := false
      size := 0
      precision := 0
      scale := 0
      defaultVal := []
      rawTag := (f.tag).getD []
      tagSettings := []
      referenced := none
      isIgnored := false
      isReadOnly := false
      isWriteOnly := false }
  match f.tag with
  | none => base
  | some tag =>
    let settings := ParseTagSettings tag
    let dbName :=
      match mapLookup settings (str "column") with
      | some nm => if nm.isEmpty then base.dbName else nm
      | none => base.dbName
    let size :=
      match mapLookup settings (str "size") with
      | some s => parseIntGo s
      | none => 0
    let precisionScale : Int × Int :=
      match mapLookup settings (str "precision") with
      | some p =>
        (parseIntGo p,
          match mapLookup settings (str "scale") with
          | some sc => parseIntGo sc
          | none => 0)
      | none => (0, 0)
    let defaultVal :=
      match mapLookup settings (str "default") with
      | some d => d
      | none => []
    let referenced :=
      match mapLookup settings (str "references") with
      | some ref =>
        let parts := splitOnChar '.' ref
        if parts.length = 2 then
          some
            { model := parts.headD []
              field := parts.getD 1 []
              onDelete := (mapLookup settings (str "onDelete")).getD []
              onUpdate := (mapLookup settings (str "onUpdate")).getD [] }
        else none
      | none => none
    { base with
      dbName := dbName
      tagSettings := settings
      isPrimaryKey := HasTagOption tag (str "primary_key") || HasTagOption tag (str "primaryKey")
      isAutoIncrement := HasTagOption tag (str "auto_increment") || HasTagOption tag (str "autoIncrement")
      isUnique := HasTagOption tag (str "unique")
      isIndex := HasTagOption tag (str "index")
      isNotNull := HasTagOption tag (str "not_null") || HasTagOption tag (str "notNull")
      isIgnored := HasTagOption tag (str "-") || HasTagOption tag (str "ignore")
      isReadOnly := HasTagOption tag (str "readonly") || HasTagOption tag (str "readOnly")
      isWriteOnly := HasTagOption tag (str "writeonly") || HasTagOption tag (str "writeOnly")
      size := size
      precision := precisionScale.1
      scale := precisionScale.2
      defaultVal := defaultVal
      referenced := referenced }

/-- The embedded-merge loop of `ExtractFields`: append each embedded field
whose name is not yet in the field map, prefixing its index path with the
embedded member's position `i`. -/
def mergeEmbedded (i : Nat) (efs : List FieldInfo)
    (fieldMap : List (List Char × FieldInfo)) :
    List FieldInfo × List (List Char × FieldInfo) :=
  match efs with
  | [] => ([], fieldMap)
  | ef :: rest =>
    match mapLookup fieldMap ef.name with
    | some _ => mergeEmbedded i rest fieldMap
    | none =>
      let ef2 := { ef with index := i :: ef.index }
      let r := mergeEmbedded i rest (mapUpsert fieldMap ef.name ef2)
      (ef2 :: r.1, r.2)

mutual
/-- The field loop of `ExtractFields` (cold path: cache misses everywhere).
Returns the fields appended by the loop and the final field map;
`i` is the declaration index, the threaded map models `fieldMap`. -/
def extractLoop (fs : GoFields) (i : Nat) (fieldMap : List (List Char × FieldInfo)) :
    List FieldInfo × List (List Char × FieldInfo) :=
  match fs with
  | .nil => ([], fieldMap)
  | .cons (.mk nm tg anon exp ty) rest =>
    if exp = false ∧ anon = false then
      extractLoop rest (i + 1) fieldMap
    else if anon = true ∧ isStruktB (IndirectType ty) = true then
      if exp = false then extractLoop rest (i + 1) fieldMap
      else
        let efs := extractEmbedded ty
        let merged := mergeEmbedded i efs fieldMap
        let tail := extractLoop rest (i + 1) merged.2
        (merged.1 ++ tail.1, tail.2)
    else
      let fi := buildFieldInfo (.mk nm tg anon exp ty) i
      let tail := extractLoop rest (i + 1) (mapUpsert fieldMap fi.name fi)
      (fi :: tail.1, tail.2)

/-- Recursive extraction of an embedded member's pointer-stripped struct
fields (`ExtractFields(reflect.New(fieldType).Elem().Interface(), prefix)`);
non-struct types yield nothing (the loop only calls this under the
struct-kind guard). -/
def extractEmbedded (t : GoType) : List FieldInfo :=
  match t with
  | .ptr t1 => extractEmbedded t1
  | .strukt _ fs => (extractLoop fs 0 []).1
  | .prim _ => []
end

/-- Model of `ExtractFields` with a cold cache: the flattened field list, or
`ModelKindError` when the (indirected) type is not a struct.  The `prefix`
parameter of the source only filters cache hits and is absent here. -/
def ExtractFields (t : GoType) : Except ErrKind (List FieldInfo) :=
  match IndirectType t with
  | .strukt _ fs => .ok (extractLoop fs 0 []).1
  | _ => .error .modelKind

/-- The `fieldMap` that a cold `ExtractFields` run stores in `fieldCache`. -/
def fieldCacheEntry (t : GoType) : List (List Char × FieldInfo) :=
  match IndirectType t with
  | .strukt _ fs => (extractLoop fs 0 []).2
  | _ => []

/-- Model of `ExtractFields` served from a warm cache: the values of the cached field
map.  Go enumerates the map in unspecified order; this canonical order is the
map's insertion order, and order-sensitive theorems quantify over
permutations. -/
def ExtractFieldsWarm (t : GoType) : Except ErrKind (List FieldInfo) :=
  match IndirectType t with
  | .strukt _ _ => .ok ((fieldCacheEntry t).map Prod.snd)
  | _ => .error .modelKind

/-- Model of `ModelInfo`: the entity descriptor. -/
structure ModelInfo : Type where
  name : List Char
  dbName : List Char
  fields : List (List Char × FieldInfo)
  fieldsByDBName : List (List Char × FieldInfo)
  primaryKey : List (List Char)
  autoIncrement : List Char
  indexes : List (List Char × List (List Char))
  uniqueIndexes : List (List Char × List (List Char))
  tagSettings : List (List Char × List Char)
deriving DecidableEq

/-- Append a column to a (possibly new) index group. -/
def appendToGroup (groups : List (List Char × List (List Char)))
    (name col : List Char) : List (List Char × List (List Char)) :=
  match mapLookup groups name with
  | some cols => mapUpsert groups name (cols ++ [col])
  | none => mapUpsert groups name [col]

/-- The per-field body of the `ExtractModelInfo` assembly loop. -/
def addFieldToInfo (info : ModelInfo) (field : FieldInfo) : ModelInfo :=
  let info :=
    { info with
      fields := mapUpsert info.fields field.name field
      fieldsByDBName := mapUpsert info.fieldsByDBName field.dbName field }
  let info :=
    if field.isPrimaryKey then
      { info with primaryKey := info.primaryKey ++ [field.name] }
    else info
  let info :=
    if field.isAutoIncrement then { info with autoIncrement := field.name }
    else info
  let info :=
    if field.isIndex then
      let nm0 := (mapLookup field.tagSettings (str "index")).getD []
      let nm :=
        if nm0.isEmpty then str "idx_" ++ info.dbName ++ ['_'] ++ field.dbName
        else nm0
      { info with indexes := appendToGroup info.indexes nm field.dbName }
    else info
  if field.isUnique then
    let nm0 := (mapLookup field.tagSettings (str "uniqueIndex")).getD []
    let nm :=
      if nm0.isEmpty then str "udx_" ++ info.dbName ++ ['_'] ++ field.dbName
      else nm0
    { info with uniqueIndexes := appendToGroup info.uniqueIndexes nm field.dbName }
  else info

/-- Top-level search for a member named `origami` (the struct-level tag
carrier; the source uses `FieldByName`, found here among the direct
members). -/
def findFieldByName : GoFields → List Char → Option GoField
  | .nil, _ => none
  | .cons f rest, nm => if f.name = nm then some f else findFieldByName rest nm

/-- Struct-level tag settings from the member named `origami`. -/
def structTagSettings (fs : GoFields) : List (List Char × List Char) :=
  match findFieldByName fs (str "origami") with
  | some f =>
    match f.tag with
    | some tag => ParseTagSettings tag
    | none => []
  | none => []

/-- The `ExtractModelInfo` assembly, shared between the cold and warm paths:
fold the flattened field list into the entity descriptor. -/
def modelInfoFrom (tname : List Char) (fs : GoFields) (fields : List FieldInfo) :
    ModelInfo :=
  let ts := structTagSettings fs
  let dbn0 := ToSnakeCase tname
  let dbn :=
    match mapLookup ts (str "table") with
    | some tb => if tb.isEmpty then dbn0 else tb
    | none => dbn0
  let init : ModelInfo :=
    { name := tname
      dbName := dbn
      fields := []
      fieldsByDBName := []
      primaryKey := []
      autoIncrement := []
      indexes := []
      uniqueIndexes := []
      tagSettings := ts }
  fields.foldl addFieldToInfo init

/-- Model of `ExtractModelInfo` with a cold cache. -/
def ExtractModelInfo (t : GoType) : Except ErrKind ModelInfo :=
  match IndirectType t with
  | .strukt tname fs => .ok (modelInfoFrom tname fs (extractLoop fs 0 []).1)
  | _ => .error .modelKind

/-- Model of `ExtractModelInfo` when `ExtractFields` is served from a warm cache,
with the cached map enumerated in the canonical order. -/
def ExtractModelInfoWarm (t : GoType) : Except ErrKind ModelInfo :=
  match IndirectType t with
  | .strukt tname fs =>
    .ok (modelInfoFrom tname fs ((fieldCacheEntry t).map Prod.snd))
  | _ => .error .modelKind

/-! ### Record values (`reflect.Value` model) -/

inductive GoValue : Type where
  | prim : List Char → Int → GoValue
  | ptrV : GoValue → GoValue
  | struktV : List GoValue → GoValue

/-- Model of `IndirectValue`: dereference pointer values. -/
def IndirectValue : GoValue → GoValue
  | .ptrV v => IndirectValue v
  | v => v

/-- Model of `Value.FieldByIndex`, stepping through pointers between levels;
`none` models the panic on an invalid path. -/
def FieldByIndex (v : GoValue) : List Nat → Option GoValue
  | [] => some v
  | i :: rest =>
    match IndirectValue v with
    | .struktV vs => (vs.get? i).bind (fun vi => FieldByIndex vi rest)
    | _ => none

/-- Outcome of a record-level operation: a result, an error, or a panic. -/
inductive Res (α : Type) : Type where
  | ok : α → Res α
  | err : ErrKind → Res α
  | panics : Res α

/-- The field loop of `GetFieldValues`, iterating the `Fields` map: skip
ignored and read-only fields and fields outside `onlyFields` when that list
is nonempty; record the value under the database column name. -/
def getFieldValuesLoop (mv : GoValue) (onlyFields : List (List Char)) :
    List (List Char × FieldInfo) → List (List Char × GoValue) →
      Option (List (List Char × GoValue))
  | [], acc => some acc
  | (nm, field) :: rest, acc =>
    if field.isIgnored = true ∨ field.isReadOnly = true then
      getFieldValuesLoop mv onlyFields rest acc
    else if 0 < onlyFields.length ∧ onlyFields.contains nm = false then
      getFieldValuesLoop mv onlyFields rest acc
    else
      match FieldByIndex mv field.index with
      | none => none
      | some w => getFieldValuesLoop mv onlyFields rest (mapUpsert acc field.dbName w)

/-- Model of `GetFieldValues`: extract a record's current values into a column-keyed
map. -/
def GetFieldValues (t : GoType) (x : GoValue) (onlyFields : List (List Char)) :
    Res (List (List Char × GoValue)) :=
  match ExtractModelInfo t with
  | .error e => .err e
  | .ok mi =>
    let mv := IndirectValue x
    match getFieldValuesLoop mv onlyFields mi.fields [] with
    | some m => .ok m
    | none => .panics

/-- A `reflect.Value` together with its addressability flag. -/
structure RefValue : Type where
  value : GoValue
  addressable : Bool

/-- Model of `reflect.ValueOf`: the returned value is never addressable (Go reflect
semantics: only a dereference, field or element of an addressable value is
addressable). -/
def ValueOf (x : GoValue) : RefValue := { value := x, addressable := false }

/-- The name of a value's dynamic type, for the assignability check. -/
def valueTypeName : GoValue → List Char
  | .prim n _ => n
  | .ptrV _ => str "*"
  | .struktV _ => str "struct"

def typeName : GoType → List Char
  | .prim n => n
  | .ptr _ => str "*"
  | .strukt n _ => n

/-- Model of `AssignableTo` for the modelled value universe: same type name. -/
def assignableGo (w : GoValue) (ft : GoType) : Bool :=
  valueTypeName w == typeName ft

/-- Names of numeric kinds, convertible to one another. -/
def isNumericName (n : List Char) : Bool :=
  n == str "int" || n == str "int32" || n == str "int64" || n == str "float64"

/-- Model of `ConvertibleTo` for the modelled value universe: numeric to numeric. -/
def convertibleGo (w : GoValue) (ft : GoType) : Bool :=
  isNumericName (valueTypeName w) && isNumericName (typeName ft)

/-- The assignment loop of `SetFieldValues`, iterating the supplied map:
unknown columns and ignored or write-only fields are skipped;
non-assignable, non-convertible values fail with `IncompatibleTypeError`. -/
def setFieldLoop (mv : GoValue) (mi : ModelInfo) :
    List (List Char × GoValue) → Option ErrKind
  | [] => none
  | (dbName, value) :: rest =>
    match mapLookup mi.fieldsByDBName dbName with
    | none => setFieldLoop mv mi rest
    | some field =>
      if field.isIgnored = true ∨ field.isWriteOnly = true then
        setFieldLoop mv mi rest
      else
        match FieldByIndex mv field.index with
        | none => setFieldLoop mv mi rest
        | some _ =>
          if assignableGo value field.typ then setFieldLoop mv mi rest
          else if convertibleGo value field.typ then setFieldLoop mv mi rest
          else some .incompatibleType

/-- Model of `SetFieldValues`: the addressability check runs on the value returned by
`reflect.ValueOf` itself, before any dereference. -/
def SetFieldValues (t : GoType) (x : GoValue) (values : List (List Char × GoValue)) :
    Option ErrKind :=
  match ExtractModelInfo t with
  | .error e => some e
  | .ok mi =>
    let modelValue := ValueOf x
    if modelValue.addressable = false then some .notAddressable
    else setFieldLoop (IndirectValue modelValue.value) mi values

/-- Conversion helper for writing concrete struct types. -/
def fsOf : List GoField → GoFields
  | [] => .nil
  | f :: r => .cons f (fsOf r)

/-! ### Concrete example types used by the counterexample theorems -/

/-- Model of `type Inner struct { N int }`. -/
def innerN : GoType :=
  .strukt (str "Inner") (fsOf [.mk (str "N") none false true (.prim (str "int"))])

/-- Model of `type Outer struct { Inner; N string }` — the embedded member declared
first. -/
def outerEmbeddedFirst : GoType :=
  .strukt (str "Outer")
    (fsOf
      [.mk (str "Inner") none true true innerN,
       .mk (str "N") none false true (.prim (str "string"))])

/-- Model of `type InnerPK struct { N int `origami:"primary_key"` }`. -/
def innerPK : GoType :=
  .strukt (str "InnerPK")
    (fsOf [.mk (str "N") (some (str "primary_key")) false true (.prim (str "int"))])

/-- Model of `type OuterPK struct { InnerPK; N string }`. -/
def outerPK : GoType :=
  .strukt (str "OuterPK")
    (fsOf
      [.mk (str "InnerPK") none true true innerPK,
       .mk (str "N") none false true (.prim (str "string"))])

/-- Model of `type T3 struct { A int `origami:"readonly"`; B int `origami:"writeonly"` }`. -/
def t3 : GoType :=
  .strukt (str "T3")
    (fsOf
      [.mk (str "A") (some (str "readonly")) false true (.prim (str "int")),
       .mk (str "B") (some (str "writeonly")) false true (.prim (str "int"))])

/-- A `T3` record with `A = 1`, `B = 2`. -/
def v3 : GoValue := .struktV [.prim (str "int") 1, .prim (str "int") 2]

/-- Model of `type U struct { A int }` with a record, the C3 failing input. -/
def tU : GoType :=
  .strukt (str "U") (fsOf [.mk (str "A") none false true (.prim (str "int"))])

def vU : GoValue := .struktV [.prim (str "int") 1]

/-! ## Theorems

First the supporting lemmas, then one theorem per claim (with witnesses for
theorems carrying hypotheses). -/

/-! ### List and map lemmas -/

theorem splitOnChar_ne_nil (sep : Char) : ∀ l : List Char, splitOnChar sep l ≠ [] := by
  intro l
  cases l with
  | nil => simp [splitOnChar]
  | cons c rest =>
    simp only [splitOnChar]
    by_cases hc : c = sep
    · simp [hc]
    · simp only [if_neg hc]
      cases splitOnChar sep rest with
      | nil => simp
      | cons h t => simp

theorem splitOnChar_length (sep : Char) :
    ∀ l : List Char, (splitOnChar sep l).length = l.count sep + 1 := by
  intro l
  induction l with
  | nil => simp [splitOnChar]
  | cons c rest ih =>
    simp only [splitOnChar]
    by_cases hc : c = sep
    · subst hc
      simp [List.count_cons, ih]
    · simp only [if_neg hc]
      have hne := splitOnChar_ne_nil sep rest
      cases hsplit : splitOnChar sep rest with
      | nil => exact absurd hsplit hne
      | cons h t =>
        have : (rest.count sep) + 1 = t.length + 1 := by
          rw [← ih, hsplit]; simp
        simp only [List.length_cons]
        rw [List.count_cons]
        simp [hc]
        omega

theorem mapLookup_upsert_ne {α : Type} (k k' : List Char) (v : α) (h : k ≠ k') :
    ∀ m : List (List Char × α), mapLookup (mapUpsert m k v) k' = mapLookup m k' := by
  intro m
  induction m with
  | nil => simp [mapUpsert, mapLookup, h]
  | cons p rest ih =>
    obtain ⟨k0, v0⟩ := p
    simp only [mapUpsert]
    by_cases h0 : k0 = k
    · subst h0
      simp [mapLookup, h]
    · simp only [if_neg h0, mapLookup]
      by_cases h1 : k0 = k'
      · simp [h1]
      · simp [h1, ih]

/-! ### Builder projection lemmas -/

@[simp] theorem Reset_argPosition (b : Builder) : b.Reset.argPosition = 0 := rfl

@[simp] theorem Reset_args (b : Builder) : b.Reset.args = [] := rfl

@[simp] theorem Reset_sections (b : Builder) : b.Reset.sections = [] := rfl

@[simp] theorem Append_argPosition (b : Builder) (s : List Char) :
    (b.Append s).argPosition = b.argPosition := rfl

@[simp] theorem Append_args (b : Builder) (s : List Char) :
    (b.Append s).args = b.args := rfl

@[simp] theorem Append_sections (b : Builder) (s : List Char) :
    (b.Append s).sections = b.sections := rfl

@[simp] theorem AppendQuoted_argPosition (b : Builder) (s : List Char) :
    (b.AppendQuoted s).argPosition = b.argPosition := rfl

@[simp] theorem AppendQuoted_args (b : Builder) (s : List Char) :
    (b.AppendQuoted s).args = b.args := rfl

@[simp] theorem AppendQuoted_sections (b : Builder) (s : List Char) :
    (b.AppendQuoted s).sections = b.sections := rfl

@[simp] theorem AppendPlaceholder_argPosition (b : Builder) :
    b.AppendPlaceholder.argPosition = b.argPosition + 1 := rfl

@[simp] theorem AppendPlaceholder_args (b : Builder) :
    b.AppendPlaceholder.args = b.args := rfl

@[simp] theorem AppendPlaceholder_sections (b : Builder) :
    b.AppendPlaceholder.sections = b.sections := rfl

@[simp] theorem Arg_argPosition (b : Builder) (v : GoAny) :
    (b.Arg v).argPosition = b.argPosition := rfl

@[simp] theorem Arg_args (b : Builder) (v : GoAny) :
    (b.Arg v).args = b.args ++ [v] := rfl

@[simp] theorem Arg_sections (b : Builder) (v : GoAny) :
    (b.Arg v).sections = b.sections := rfl

@[simp] theorem AppendWithArgs_argPosition (b : Builder) (s : List Char) (a : List GoAny) :
    (b.AppendWithArgs s a).argPosition = b.argPosition := rfl

@[simp] theorem AppendWithArgs_args (b : Builder) (s : List Char) (a : List GoAny) :
    (b.AppendWithArgs s a).args = b.args ++ a := rfl

@[simp] theorem AppendWithArgs_sections (b : Builder) (s : List Char) (a : List GoAny) :
    (b.AppendWithArgs s a).sections = b.sections := rfl

@[simp] theorem WithArgs_argPosition (b : Builder) (a : List GoAny) :
    (b.WithArgs a).argPosition = b.argPosition := rfl

@[simp] theorem WithArgs_args (b : Builder) (a : List GoAny) :
    (b.WithArgs a).args = b.args ++ a := rfl

@[simp] theorem WithArgs_sections (b : Builder) (a : List GoAny) :
    (b.WithArgs a).sections = b.sections := rfl

@[simp] theorem MarkSection_argPosition (b : Builder) (n : List Char) :
    (b.MarkSection n).argPosition = b.argPosition := rfl

@[simp] theorem MarkSection_args (b : Builder) (n : List Char) :
    (b.MarkSection n).args = b.args := rfl

theorem MarkSection_sections (b : Builder) (n : List Char) :
    (b.MarkSection n).sections = mapUpsert b.sections n b.buffer.length := rfl

/-- State change of the `AppendWithPlaceholders` loop over the split parts. -/
theorem appendParts_spec :
    ∀ (parts : List (List Char)) (b : Builder),
      (b.appendParts parts).argPosition = b.argPosition + (parts.length - 1) ∧
        (b.appendParts parts).args = b.args ∧
        (b.appendParts parts).sections = b.sections := by
  intro parts
  induction parts with
  | nil => intro b; simp [Builder.appendParts]
  | cons p rest ih =>
    intro b
    cases rest with
    | nil => simp [Builder.appendParts]
    | cons q t =>
      have h := ih { b with
        argPosition := b.argPosition + 1
        buffer := b.buffer ++ p ++ b.dialect.placeholder (b.argPosition + 1) }
      simp only [Builder.appendParts] at h ⊢
      refine ⟨?_, h.2.1, h.2.2⟩
      rw [h.1]
      simp
      omega

theorem AppendWithPlaceholders_spec (b : Builder) (sql : List Char) (a : List GoAny) :
    (b.AppendWithPlaceholders sql a).argPosition = b.argPosition + sql.count '?' ∧
      (b.AppendWithPlaceholders sql a).args = b.args ++ a ∧
      (b.AppendWithPlaceholders sql a).sections = b.sections := by
  have h := appendParts_spec (splitOnChar '?' sql) b
  have hl := splitOnChar_length '?' sql
  unfold Builder.AppendWithPlaceholders
  refine ⟨?_, ?_, ?_⟩
  · simp only [h.1, hl]
    omega
  · simp only [h.2.1]
  · simp only [h.2.2]

theorem Where_spec (b : Builder) (c : List Char) (a : List GoAny) :
    (b.Where c a).argPosition = b.argPosition + c.count '?' ∧
      (b.Where c a).args = b.args ++ a ∧
      (b.Where c a).sections = b.sections := by
  unfold Builder.Where
  dsimp only
  split
  · have h := AppendWithPlaceholders_spec (b.Append (str " AND ")) c a
    simpa using h
  · have h := AppendWithPlaceholders_spec (b.Append (str " WHERE ")) c a
    simpa using h

theorem Having_spec (b : Builder) (c : List Char) (a : List GoAny) :
    (b.Having c a).argPosition = b.argPosition + c.count '?' ∧
      (b.Having c a).args = b.args ++ a ∧
      (b.Having c a).sections = b.sections := by
  unfold Builder.Having
  have h := AppendWithPlaceholders_spec (b.Append (str " HAVING ")) c a
  simpa using h

theorem selectCols_spec :
    ∀ (cols : List (List Char)) (f : Bool) (b : Builder),
      (Builder.selectCols b cols f).argPosition = b.argPosition ∧
        (Builder.selectCols b cols f).args = b.args ∧
        (Builder.selectCols b cols f).sections = b.sections := by
  intro cols
  induction cols with
  | nil => intro f b; simp [Builder.selectCols]
  | cons c rest ih =>
    intro f b
    simp only [Builder.selectCols]
    set b1 := if f then b else b.Append (str ", ") with hb1
    set b2 :=
      if containsSub [' '] c || containsSub ['('] c then b1.Append c
      else b1.AppendQuoted c with hb2
    have h := ih false b2
    have hb2p : b2.argPosition = b.argPosition ∧ b2.args = b.args ∧
        b2.sections = b.sections := by
      rw [hb2, hb1]
      split <;> split <;> simp
    exact ⟨h.1.trans hb2p.1, h.2.1.trans hb2p.2.1, h.2.2.trans hb2p.2.2⟩

theorem orderByCols_spec :
    ∀ (cols : List (List Char)) (f : Bool) (b : Builder),
      (Builder.orderByCols b cols f).argPosition = b.argPosition ∧
        (Builder.orderByCols b cols f).args = b.args ∧
        (Builder.orderByCols b cols f).sections = b.sections := by
  intro cols
  induction cols with
  | nil => intro f b; simp [Builder.orderByCols]
  | cons c rest ih =>
    intro f b
    simp only [Builder.orderByCols]
    set b1 := if f then b else b.Append (str ", ") with hb1
    have hb1p : b1.argPosition = b.argPosition ∧ b1.args = b.args ∧
        b1.sections = b.sections := by
      rw [hb1]; split <;> simp
    set b2 :=
      if hasSuffixL c (str " DESC") || hasSuffixL c (str " desc") then
        (b1.AppendQuoted ((goFieldsSplit c).headD [])).Append (str " DESC")
      else if hasSuffixL c (str " ASC") || hasSuffixL c (str " asc") then
        (b1.AppendQuoted ((goFieldsSplit c).headD [])).Append (str " ASC")
      else b1.AppendQuoted c with hb2
    have hb2p : b2.argPosition = b.argPosition ∧ b2.args = b.args ∧
        b2.sections = b.sections := by
      rw [hb2]
      split
      · simpa using hb1p
      · split
        · simpa using hb1p
        · simpa using hb1p
    have h := ih false b2
    exact ⟨h.1.trans hb2p.1, h.2.1.trans hb2p.2.1, h.2.2.trans hb2p.2.2⟩

theorem groupByCols_spec :
    ∀ (cols : List (List Char)) (f : Bool) (b : Builder),
      (Builder.groupByCols b cols f).argPosition = b.argPosition ∧
        (Builder.groupByCols b cols f).args = b.args ∧
        (Builder.groupByCols b cols f).sections = b.sections := by
  intro cols
  induction cols with
  | nil => intro f b; simp [Builder.groupByCols]
  | cons c rest ih =>
    intro f b
    simp only [Builder.groupByCols]
    set b1 := if f then b else b.Append (str ", ") with hb1
    set b2 := if containsSub ['('] c then b1.Append c else b1.AppendQuoted c with hb2
    have hb2p : b2.argPosition = b.argPosition ∧ b2.args = b.args ∧
        b2.sections = b.sections := by
      rw [hb2, hb1]
      split <;> split <;> simp
    have h := ih false b2
    exact ⟨h.1.trans hb2p.1, h.2.1.trans hb2p.2.1, h.2.2.trans hb2p.2.2⟩

theorem columnsList_spec :
    ∀ (cols : List (List Char)) (f : Bool) (b : Builder),
      (Builder.columnsList b cols f).argPosition = b.argPosition ∧
        (Builder.columnsList b cols f).args = b.args ∧
        (Builder.columnsList b cols f).sections = b.sections := by
  intro cols
  induction cols with
  | nil => intro f b; simp [Builder.columnsList]
  | cons c rest ih =>
    intro f b
    simp only [Builder.columnsList]
    set b1 := if f then b else b.Append (str ", ") with hb1
    have h := ih false (b1.AppendQuoted c)
    have hb1p : b1.argPosition = b.argPosition ∧ b1.args = b.args ∧
        b1.sections = b.sections := by
      rw [hb1]; split <;> simp
    refine ⟨?_, ?_, ?_⟩
    · rw [h.1]; simpa using hb1p.1
    · rw [h.2.1]; simpa using hb1p.2.1
    · rw [h.2.2]; simpa using hb1p.2.2

theorem indexColsList_spec :
    ∀ (cols : List (List Char)) (f : Bool) (b : Builder),
      (Builder.indexColsList b cols f).argPosition = b.argPosition ∧
        (Builder.indexColsList b cols f).args = b.args ∧
        (Builder.indexColsList b cols f).sections = b.sections := by
  intro cols
  induction cols with
  | nil => intro f b; simp [Builder.indexColsList]
  | cons c rest ih =>
    intro f b
    simp only [Builder.indexColsList]
    set b1 := if f then b else b.Append (str ", ") with hb1
    have hb1p : b1.argPosition = b.argPosition ∧ b1.args = b.args ∧
        b1.sections = b.sections := by
      rw [hb1]; split <;> simp
    set b2 := b1.AppendQuoted ((goFieldsSplit c).headD []) with hb2
    set b3 :=
      if (goFieldsSplit c).length > 1 then
        (b2.Append (str " ")).Append ((goFieldsSplit c).getD 1 [])
      else b2 with hb3
    have hb3p : b3.argPosition = b.argPosition ∧ b3.args = b.args ∧
        b3.sections = b.sections := by
      rw [hb3, hb2]
      split <;> simp [hb1p.1, hb1p.2.1, hb1p.2.2]
    have h := ih false b3
    exact ⟨h.1.trans hb3p.1, h.2.1.trans hb3p.2.1, h.2.2.trans hb3p.2.2⟩

theorem appendConstraints_spec :
    ∀ (cs : List (List Char)) (b : Builder),
      (Builder.appendConstraints b cs).argPosition = b.argPosition ∧
        (Builder.appendConstraints b cs).args = b.args ∧
        (Builder.appendConstraints b cs).sections = b.sections := by
  intro cs
  induction cs with
  | nil => intro b; simp [Builder.appendConstraints]
  | cons c rest ih =>
    intro b
    simp only [Builder.appendConstraints]
    have h := ih ((b.Append (str " ")).Append c)
    simpa using h

theorem valuesList_spec :
    ∀ (vs : List GoAny) (f : Bool) (b : Builder),
      (Builder.valuesList b vs f).argPosition = b.argPosition + vs.length ∧
        (Builder.valuesList b vs f).args = b.args ++ vs ∧
        (Builder.valuesList b vs f).sections = b.sections := by
  intro vs
  induction vs with
  | nil => intro f b; simp [Builder.valuesList]
  | cons v rest ih =>
    intro f b
    simp only [Builder.valuesList]
    set b1 := if f then b else b.Append (str ", ") with hb1
    have hb1p : b1.argPosition = b.argPosition ∧ b1.args = b.args ∧
        b1.sections = b.sections := by
      rw [hb1]; split <;> simp
    have h := ih false ((b1.AppendPlaceholder).Arg v)
    refine ⟨?_, ?_, ?_⟩
    · rw [h.1]
      simp [hb1p.1]
      omega
    · rw [h.2.1]
      simp [hb1p.2.1]
    · rw [h.2.2]
      simp [hb1p.2.2]

theorem multipleRows_spec :
    ∀ (rows : List (List GoAny)) (f : Bool) (b : Builder),
      (Builder.multipleRows b rows f).argPosition =
          b.argPosition + (rows.map List.length).sum ∧
        (Builder.multipleRows b rows f).args.length =
          b.args.length + (rows.map List.length).sum ∧
        (Builder.multipleRows b rows f).sections = b.sections := by
  intro rows
  induction rows with
  | nil => intro f b; simp [Builder.multipleRows]
  | cons row rest ih =>
    intro f b
    simp only [Builder.multipleRows]
    set b1 := if f then b else b.Append (str ", ") with hb1
    have hb1p : b1.argPosition = b.argPosition ∧ b1.args = b.args ∧
        b1.sections = b.sections := by
      rw [hb1]; split <;> simp
    set b2 := (Builder.valuesList (b1.Append (str "(")) row true).Append (str ")")
      with hb2
    have hv := valuesList_spec row true (b1.Append (str "("))
    have hb2p : b2.argPosition = b.argPosition + row.length ∧
        b2.args.length = b.args.length + row.length ∧ b2.sections = b.sections := by
      rw [hb2]
      refine ⟨?_, ?_, ?_⟩
      · simp [hv.1, hb1p.1]
      · simp [hv.2.1, hb1p.2.1]
      · simp [hv.2.2, hb1p.2.2]
    have h := ih false b2
    refine ⟨?_, ?_, ?_⟩
    · rw [h.1, hb2p.1]
      simp
      omega
    · rw [h.2.1, hb2p.2.1]
      simp
      omega
    · rw [h.2.2, hb2p.2.2]

theorem setMapEntries_spec :
    ∀ (entries : List (List Char × GoAny)) (f : Bool) (b : Builder),
      (Builder.setMapEntries b entries f).argPosition =
          b.argPosition + entries.length ∧
        (Builder.setMapEntries b entries f).args.length =
          b.args.length + entries.length ∧
        (Builder.setMapEntries b entries f).sections = b.sections := by
  intro entries
  induction entries with
  | nil => intro f b; simp [Builder.setMapEntries]
  | cons e rest ih =>
    intro f b
    obtain ⟨column, value⟩ := e
    simp only [Builder.setMapEntries]
    set b1 := if f then b else b.Append (str ", ") with hb1
    have hb1p : b1.argPosition = b.argPosition ∧ b1.args = b.args ∧
        b1.sections = b.sections := by
      rw [hb1]; split <;> simp
    have h := ih false
      ((((b1.AppendQuoted column).Append (str " = ")).AppendPlaceholder).Arg value)
    refine ⟨?_, ?_, ?_⟩
    · rw [h.1]
      simp [hb1p.1]
      omega
    · rw [h.2.1]
      simp [hb1p.2.1]
      omega
    · rw [h.2.2]
      simp [hb1p.2.2]

@[simp] theorem mapLookup_nil {α : Type} (k : List Char) :
    mapLookup ([] : List (List Char × α)) k = none := rfl

@[simp] theorem selectCols_argPosition (b : Builder) (cols : List (List Char)) (f : Bool) :
    (Builder.selectCols b cols f).argPosition = b.argPosition := (selectCols_spec cols f b).1

@[simp] theorem selectCols_args (b : Builder) (cols : List (List Char)) (f : Bool) :
    (Builder.selectCols b cols f).args = b.args := (selectCols_spec cols f b).2.1

@[simp] theorem selectCols_sections (b : Builder) (cols : List (List Char)) (f : Bool) :
    (Builder.selectCols b cols f).sections = b.sections := (selectCols_spec cols f b).2.2

@[simp] theorem orderByCols_argPosition (b : Builder) (cols : List (List Char)) (f : Bool) :
    (Builder.orderByCols b cols f).argPosition = b.argPosition := (orderByCols_spec cols f b).1

@[simp] theorem orderByCols_args (b : Builder) (cols : List (List Char)) (f : Bool) :
    (Builder.orderByCols b cols f).args = b.args := (orderByCols_spec cols f b).2.1

@[simp] theorem orderByCols_sections (b : Builder) (cols : List (List Char)) (f : Bool) :
    (Builder.orderByCols b cols f).sections = b.sections := (orderByCols_spec cols f b).2.2

@[simp] theorem groupByCols_argPosition (b : Builder) (cols : List (List Char)) (f : Bool) :
    (Builder.groupByCols b cols f).argPosition = b.argPosition := (groupByCols_spec cols f b).1

@[simp] theorem groupByCols_args (b : Builder) (cols : List (List Char)) (f : Bool) :
    (Builder.groupByCols b cols f).args = b.args := (groupByCols_spec cols f b).2.1

@[simp] theorem groupByCols_sections (b : Builder) (cols : List (List Char)) (f : Bool) :
    (Builder.groupByCols b cols f).sections = b.sections := (groupByCols_spec cols f b).2.2

@[simp] theorem columnsList_argPosition (b : Builder) (cols : List (List Char)) (f : Bool) :
    (Builder.columnsList b cols f).argPosition = b.argPosition := (columnsList_spec cols f b).1

@[simp] theorem columnsList_args (b : Builder) (cols : List (List Char)) (f : Bool) :
    (Builder.columnsList b cols f).args = b.args := (columnsList_spec cols f b).2.1

@[simp] theorem columnsList_sections (b : Builder) (cols : List (List Char)) (f : Bool) :
    (Builder.columnsList b cols f).sections = b.sections := (columnsList_spec cols f b).2.2

@[simp] theorem indexColsList_argPosition (b : Builder) (cols : List (List Char)) (f : Bool) :
    (Builder.indexColsList b cols f).argPosition = b.argPosition :=
  (indexColsList_spec cols f b).1

@[simp] theorem indexColsList_args (b : Builder) (cols : List (List Char)) (f : Bool) :
    (Builder.indexColsList b cols f).args = b.args := (indexColsList_spec cols f b).2.1

@[simp] theorem indexColsList_sections (b : Builder) (cols : List (List Char)) (f : Bool) :
    (Builder.indexColsList b cols f).sections = b.sections := (indexColsList_spec cols f b).2.2

@[simp] theorem appendConstraints_argPosition (b : Builder) (cs : List (List Char)) :
    (Builder.appendConstraints b cs).argPosition = b.argPosition :=
  (appendConstraints_spec cs b).1

@[simp] theorem appendConstraints_args (b : Builder) (cs : List (List Char)) :
    (Builder.appendConstraints b cs).args = b.args := (appendConstraints_spec cs b).2.1

@[simp] theorem appendConstraints_sections (b : Builder) (cs : List (List Char)) :
    (Builder.appendConstraints b cs).sections = b.sections := (appendConstraints_spec cs b).2.2

@[simp] theorem valuesList_argPosition (b : Builder) (vs : List GoAny) (f : Bool) :
    (Builder.valuesList b vs f).argPosition = b.argPosition + vs.length :=
  (valuesList_spec vs f b).1

@[simp] theorem valuesList_args (b : Builder) (vs : List GoAny) (f : Bool) :
    (Builder.valuesList b vs f).args = b.args ++ vs := (valuesList_spec vs f b).2.1

@[simp] theorem valuesList_sections (b : Builder) (vs : List GoAny) (f : Bool) :
    (Builder.valuesList b vs f).sections = b.sections := (valuesList_spec vs f b).2.2

@[simp] theorem multipleRows_argPosition (b : Builder) (rows : List (List GoAny)) (f : Bool) :
    (Builder.multipleRows b rows f).argPosition =
      b.argPosition + (rows.map List.length).sum := (multipleRows_spec rows f b).1

@[simp] theorem multipleRows_args_length (b : Builder) (rows : List (List GoAny)) (f : Bool) :
    (Builder.multipleRows b rows f).args.length =
      b.args.length + (rows.map List.length).sum := (multipleRows_spec rows f b).2.1

@[simp] theorem multipleRows_sections (b : Builder) (rows : List (List GoAny)) (f : Bool) :
    (Builder.multipleRows b rows f).sections = b.sections := (multipleRows_spec rows f b).2.2

@[simp] theorem setMapEntries_argPosition (b : Builder) (es : List (List Char × GoAny))
    (f : Bool) :
    (Builder.setMapEntries b es f).argPosition = b.argPosition + es.length :=
  (setMapEntries_spec es f b).1

@[simp] theorem setMapEntries_args_length (b : Builder) (es : List (List Char × GoAny))
    (f : Bool) :
    (Builder.setMapEntries b es f).args.length = b.args.length + es.length :=
  (setMapEntries_spec es f b).2.1

@[simp] theorem setMapEntries_sections (b : Builder) (es : List (List Char × GoAny))
    (f : Bool) :
    (Builder.setMapEntries b es f).sections = b.sections := (setMapEntries_spec es f b).2.2

@[simp] theorem AppendWithPlaceholders_argPosition (b : Builder) (s : List Char)
    (a : List GoAny) :
    (b.AppendWithPlaceholders s a).argPosition = b.argPosition + s.count '?' :=
  (AppendWithPlaceholders_spec b s a).1

@[simp] theorem AppendWithPlaceholders_args (b : Builder) (s : List Char) (a : List GoAny) :
    (b.AppendWithPlaceholders s a).args = b.args ++ a :=
  (AppendWithPlaceholders_spec b s a).2.1

@[simp] theorem AppendWithPlaceholders_sections (b : Builder) (s : List Char)
    (a : List GoAny) :
    (b.AppendWithPlaceholders s a).sections = b.sections :=
  (AppendWithPlaceholders_spec b s a).2.2

@[simp] theorem Where_argPosition (b : Builder) (c : List Char) (a : List GoAny) :
    (b.Where c a).argPosition = b.argPosition + c.count '?' := (Where_spec b c a).1

@[simp] theorem Where_args (b : Builder) (c : List Char) (a : List GoAny) :
    (b.Where c a).args = b.args ++ a := (Where_spec b c a).2.1

@[simp] theorem Where_sections (b : Builder) (c : List Char) (a : List GoAny) :
    (b.Where c a).sections = b.sections := (Where_spec b c a).2.2

@[simp] theorem Having_argPosition (b : Builder) (c : List Char) (a : List GoAny) :
    (b.Having c a).argPosition = b.argPosition + c.count '?' := (Having_spec b c a).1

@[simp] theorem Having_args (b : Builder) (c : List Char) (a : List GoAny) :
    (b.Having c a).args = b.args ++ a := (Having_spec b c a).2.1

@[simp] theorem Having_sections (b : Builder) (c : List Char) (a : List GoAny) :
    (b.Having c a).sections = b.sections := (Having_spec b c a).2.2

/-- Every balanced fluent call preserves the placeholder-argument invariant. -/
theorem execOp_argsInv (b : Builder) (op : BOp) (hop : op.balanced = true)
    (hb : b.argPosition = b.args.length) :
    (execOp b op).argPosition = (execOp b op).args.length := by
  cases op with
  | select cols =>
    simp only [execOp, Builder.Select]
    split_ifs <;> simp
  | fromT t => simp [execOp, Builder.From, hb]
  | join jt t c => simp [execOp, Builder.Join, hb]
  | whereC c a =>
    have hc : c.count '?' = a.length := by simpa [BOp.balanced] using hop
    simp [execOp, hb, hc]
  | orderBy cols =>
    simp only [execOp, Builder.OrderBy]
    split_ifs <;> simp [hb]
  | groupBy cols =>
    simp only [execOp, Builder.GroupBy]
    split_ifs <;> simp [hb]
  | having c a =>
    have hc : c.count '?' = a.length := by simpa [BOp.balanced] using hop
    simp [execOp, hb, hc]
  | limit n => simp [execOp, Builder.Limit, hb]
  | offset n => simp [execOp, Builder.Offset, hb]
  | limitOffset n m => simp [execOp, Builder.LimitOffset, hb]
  | insert t => simp [execOp, Builder.Insert]
  | columns cols => simp [execOp, Builder.Columns, hb]
  | values vs => simp [execOp, Builder.Values, hb]
  | multipleValues rows => simp [execOp, Builder.MultipleValues, hb]
  | update t => simp [execOp, Builder.Update]
  | set c v =>
    simp only [execOp, Builder.Set]
    split_ifs <;> simp [hb]
  | setMap entries =>
    simp only [execOp, Builder.SetMap]
    split_ifs <;> simp [hb]
  | delete => simp [execOp, Builder.Delete]
  | deleteFrom t => simp [execOp, Builder.DeleteFrom]
  | returning c =>
    simp only [execOp, Builder.Returning]
    split_ifs <;> simp [hb]
  | union s a => simp [BOp.balanced] at hop
  | unionAll s a => simp [BOp.balanced] at hop
  | count c =>
    simp only [execOp, Builder.Count]
    split_ifs <;> simp
  | createTable t ine =>
    simp only [execOp, Builder.CreateTable]
    split_ifs <;> simp
  | addColumn c dt cs =>
    simp only [execOp, Builder.AddColumn]
    split_ifs <;> simp [hb]
  | primaryKey cols => simp [execOp, Builder.PrimaryKey, hb]
  | uniqueKey n cols => simp [execOp, Builder.UniqueKey, hb]
  | foreignKey n c rt rc od ou =>
    simp only [execOp, Builder.ForeignKey]
    split_ifs <;> simp [hb]
  | closeParenthesis => simp [execOp, Builder.CloseParenthesis, hb]
  | alterTable t => simp [execOp, Builder.AlterTable]
  | addColumnToTable c dt cs => simp [execOp, Builder.AddColumnToTable, hb]
  | renameTable n => simp [execOp, Builder.RenameTable, hb]
  | dropColumn c => simp [execOp, Builder.DropColumn, hb]
  | createIndex n t u =>
    simp only [execOp, Builder.CreateIndex]
    split_ifs <;> simp
  | indexColumns cols => simp [execOp, Builder.IndexColumns, hb]
  | dropTable t ie =>
    simp only [execOp, Builder.DropTable]
    split_ifs <;> simp
  | dropIndex n ie =>
    simp only [execOp, Builder.DropIndex]
    split_ifs <;> simp
  | beginTransaction => simp [execOp, Builder.BeginTransaction]
  | commitTransaction => simp [execOp, Builder.CommitTransaction]
  | rollbackTransaction => simp [execOp, Builder.RollbackTransaction]
  | raw s => simp [execOp, Builder.Raw, hb]
  | rawWithArgs s a => simp [BOp.balanced] at hop
  | withArgs a => simp [BOp.balanced] at hop
  | appendOp s => simp [execOp, hb]
  | appendQuotedOp i => simp [execOp, hb]
  | appendPlaceholderOp => simp [BOp.balanced] at hop
  | argOp v => simp [BOp.balanced] at hop
  | appendWithArgsOp s a => simp [BOp.balanced] at hop
  | appendWithPlaceholdersOp s a =>
    have hc : s.count '?' = a.length := by simpa [BOp.balanced] using hop
    simp [execOp, hb, hc]
  | markSection n => simp [execOp, hb]
  | resetOp => simp [execOp]
  | subquery sub al => simp [BOp.balanced] at hop
  | existsSub sub => simp [BOp.balanced] at hop
  | notExistsSub sub => simp [BOp.balanced] at hop

/-- No fluent call other than `MarkSection name` can make `name` looked-up in
the sections map. -/
theorem execOp_sections_none (b : Builder) (op : BOp) (name : List Char)
    (hop : op.marksName name = false)
    (hn : mapLookup b.sections name = none) :
    mapLookup (execOp b op).sections name = none := by
  cases op with
  | markSection n =>
    have hne : n ≠ name := by simpa [BOp.marksName] using hop
    simp only [execOp, MarkSection_sections]
    rw [mapLookup_upsert_ne n name _ hne]
    exact hn
  | select cols =>
    simp only [execOp, Builder.Select]
    split_ifs <;> simp
  | fromT t => simpa [execOp, Builder.From] using hn
  | join jt t c => simpa [execOp, Builder.Join] using hn
  | whereC c a => simpa [execOp] using hn
  | orderBy cols =>
    simp only [execOp, Builder.OrderBy]
    split_ifs <;> simpa using hn
  | groupBy cols =>
    simp only [execOp, Builder.GroupBy]
    split_ifs <;> simpa using hn
  | having c a => simpa [execOp] using hn
  | limit n => simpa [execOp, Builder.Limit] using hn
  | offset n => simpa [execOp, Builder.Offset] using hn
  | limitOffset n m => simpa [execOp, Builder.LimitOffset] using hn
  | insert t => simp [execOp, Builder.Insert]
  | columns cols => simpa [execOp, Builder.Columns] using hn
  | values vs => simpa [execOp, Builder.Values] using hn
  | multipleValues rows => simpa [execOp, Builder.MultipleValues] using hn
  | update t => simp [execOp, Builder.Update]
  | set c v =>
    simp only [execOp, Builder.Set]
    split_ifs <;> simpa using hn
  | setMap entries =>
    simp only [execOp, Builder.SetMap]
    split_ifs <;> simpa using hn
  | delete => simp [execOp, Builder.Delete]
  | deleteFrom t => simp [execOp, Builder.DeleteFrom]
  | returning c =>
    simp only [execOp, Builder.Returning]
    split_ifs <;> simpa using hn
  | union s a => simpa [execOp, Builder.Union] using hn
  | unionAll s a => simpa [execOp, Builder.UnionAll] using hn
  | count c =>
    simp only [execOp, Builder.Count]
    split_ifs <;> simp
  | createTable t ine =>
    simp only [execOp, Builder.CreateTable]
    split_ifs <;> simp
  | addColumn c dt cs =>
    simp only [execOp, Builder.AddColumn]
    split_ifs <;> simpa using hn
  | primaryKey cols => simpa [execOp, Builder.PrimaryKey] using hn
  | uniqueKey n cols => simpa [execOp, Builder.UniqueKey] using hn
  | foreignKey n c rt rc od ou =>
    simp only [execOp, Builder.ForeignKey]
    split_ifs <;> simpa using hn
  | closeParenthesis => simpa [execOp, Builder.CloseParenthesis] using hn
  | alterTable t => simp [execOp, Builder.AlterTable]
  | addColumnToTable c dt cs =>
    simpa [execOp, Builder.AddColumnToTable] using hn
  | renameTable n => simpa [execOp, Builder.RenameTable] using hn
  | dropColumn c => simpa [execOp, Builder.DropColumn] using hn
  | createIndex n t u =>
    simp only [execOp, Builder.CreateIndex]
    split_ifs <;> simp
  | indexColumns cols => simpa [execOp, Builder.IndexColumns] using hn
  | dropTable t ie =>
    simp only [execOp, Builder.DropTable]
    split_ifs <;> simp
  | dropIndex n ie =>
    simp only [execOp, Builder.DropIndex]
    split_ifs <;> simp
  | beginTransaction => simp [execOp, Builder.BeginTransaction]
  | commitTransaction => simp [execOp, Builder.CommitTransaction]
  | rollbackTransaction => simp [execOp, Builder.RollbackTransaction]
  | raw s => simpa [execOp, Builder.Raw] using hn
  | rawWithArgs s a => simpa [execOp, Builder.RawWithArgs] using hn
  | withArgs a => simpa [execOp] using hn
  | appendOp s => simpa [execOp] using hn
  | appendQuotedOp i => simpa [execOp] using hn
  | appendPlaceholderOp => simpa [execOp] using hn
  | argOp v => simpa [execOp] using hn
  | appendWithArgsOp s a => simpa [execOp] using hn
  | appendWithPlaceholdersOp s a => simpa [execOp] using hn
  | resetOp => simp [execOp, Builder.Reset]
  | subquery sub al =>
    simp only [execOp, Builder.Subquery]
    split_ifs <;> simpa using hn
  | existsSub sub => simpa [execOp, Builder.ExistsSub] using hn
  | notExistsSub sub => simpa [execOp, Builder.NotExistsSub] using hn

/-! ### Claim C2 — placeholder count versus argument count -/

/-- C2, counterexample: the claim quantifies over every sequence of fluent
builder calls, but `WithArgs` appends arguments without emitting any
placeholder, so after `WithArgs(5)` on a fresh builder the emitted-placeholder
counter is 0 while the argument list has length 1. -/
theorem c2_counterexample :
    ¬ (runOps PostgresDialect [BOp.withArgs [GoAny.intV 5]]).argPosition =
        (runOps PostgresDialect [BOp.withArgs [GoAny.intV 5]]).args.length := by
  decide

/-- C2, amended: for every dialect and every sequence of fluent calls drawn
from the balanced subset (every statement and clause constructor except the
raw-argument and raw-placeholder escape hatches `Arg`, `WithArgs`,
`AppendWithArgs`, `RawWithArgs`, `Union`, `UnionAll`, `Subquery`,
`Exists`/`NotExists` and bare `AppendPlaceholder`, and with
`Where`/`Having`/`AppendWithPlaceholders` supplying exactly one argument per
`?`), the number of placeholders emitted (the source's `argPosition` counter,
incremented exactly when a placeholder token is written) equals the length of
the bound-argument list; as the sequence is arbitrary, this holds at every
point of every such call chain. -/
theorem c2_amended (d : Dialect) (ops : List BOp)
    (h : ∀ op ∈ ops, op.balanced = true) :
    (runOps d ops).argPosition = (runOps d ops).args.length := by
  suffices hgen : ∀ (ops : List BOp) (b : Builder),
      (∀ op ∈ ops, op.balanced = true) → b.argPosition = b.args.length →
      (runOpsFrom b ops).argPosition = (runOpsFrom b ops).args.length by
    exact hgen ops (NewBuilder d) h rfl
  intro ops
  induction ops with
  | nil => intro b _ hb; exact hb
  | cons op rest ih =>
    intro b hall hb
    exact ih (execOp b op) (fun o ho => hall o (List.mem_cons_of_mem _ ho))
      (execOp_argsInv b op (hall op (List.mem_cons_self _ _)) hb)

/-- Witness for `c2_amended` at a concrete call chain. -/
theorem c2_amended_witness :
    (runOps PostgresDialect
        [BOp.select [], BOp.fromT (str "users"),
         BOp.whereC (str "id = ?") [GoAny.intV 5],
         BOp.values [GoAny.intV 1, GoAny.intV 2]]).argPosition =
      (runOps PostgresDialect
        [BOp.select [], BOp.fromT (str "users"),
         BOp.whereC (str "id = ?") [GoAny.intV 5],
         BOp.values [GoAny.intV 1, GoAny.intV 2]]).args.length :=
  c2_amended PostgresDialect
    [BOp.select [], BOp.fromT (str "users"),
     BOp.whereC (str "id = ?") [GoAny.intV 5],
     BOp.values [GoAny.intV 1, GoAny.intV 2]] (by decide)

/-! ### Claim C6 — the Postgres `Select/From/Where/Where` chain -/

/-- C6: `Select().From("users").Where("id = ?", 5).Where("age > ?", 18)` on
the Postgres dialect yields SQL with exactly one `WHERE`, exactly one `AND`,
`$1` before `$2`, and `ToSQL` returns the arguments `[5, 18]`. -/
theorem c6_postgres_where_chain :
    countSub (str "WHERE")
        (runOps PostgresDialect
          [BOp.select [], BOp.fromT (str "users"),
           BOp.whereC (str "id = ?") [GoAny.intV 5],
           BOp.whereC (str "age > ?") [GoAny.intV 18]]).SQL = 1 ∧
      countSub (str "AND")
        (runOps PostgresDialect
          [BOp.select [], BOp.fromT (str "users"),
           BOp.whereC (str "id = ?") [GoAny.intV 5],
           BOp.whereC (str "age > ?") [GoAny.intV 18]]).SQL = 1 ∧
      (∃ i j, i < j ∧
        indexOfSub (str "$1")
          (runOps PostgresDialect
            [BOp.select [], BOp.fromT (str "users"),
             BOp.whereC (str "id = ?") [GoAny.intV 5],
             BOp.whereC (str "age > ?") [GoAny.intV 18]]).SQL = some i ∧
        indexOfSub (str "$2")
          (runOps PostgresDialect
            [BOp.select [], BOp.fromT (str "users"),
             BOp.whereC (str "id = ?") [GoAny.intV 5],
             BOp.whereC (str "age > ?") [GoAny.intV 18]]).SQL = some j) ∧
      (runOps PostgresDialect
          [BOp.select [], BOp.fromT (str "users"),
           BOp.whereC (str "id = ?") [GoAny.intV 5],
           BOp.whereC (str "age > ?") [GoAny.intV 18]]).ToSQL =
        (str "SELECT * FROM \"users\" WHERE id = $1 AND age > $2",
         [GoAny.intV 5, GoAny.intV 18]) :=
  ⟨by decide, by decide, ⟨33, 46, by decide, by decide, by decide⟩, by decide⟩

/-! ### Claim C8 — `ReplaceSection` on an unmarked name -/

/-- C8: on any builder state reached by fluent calls none of which is
`MarkSection(name)`, `ReplaceSection(name, content)` fails with
`SectionNotFoundError` and returns the builder unchanged (accumulated SQL
text, argument list and all other state intact). -/
theorem c8_replace_unmarked (d : Dialect) (ops : List BOp) (name content : List Char)
    (h : ∀ op ∈ ops, op.marksName name = false) :
    Builder.ReplaceSection (runOps d ops) name content =
      (runOps d ops, some ErrKind.sectionNotFound) := by
  have hnone : mapLookup (runOps d ops).sections name = none := by
    suffices hgen : ∀ (ops : List BOp) (b : Builder),
        (∀ op ∈ ops, op.marksName name = false) →
        mapLookup b.sections name = none →
        mapLookup (runOpsFrom b ops).sections name = none by
      exact hgen ops (NewBuilder d) h rfl
    intro ops
    induction ops with
    | nil => intro b _ hb; exact hb
    | cons op rest ih =>
      intro b hall hb
      exact ih (execOp b op) (fun o ho => hall o (List.mem_cons_of_mem _ ho))
        (execOp_sections_none b op name (hall op (List.mem_cons_self _ _)) hb)
  unfold Builder.ReplaceSection
  rw [hnone]

/-- Witness for `c8_replace_unmarked` at a concrete call chain. -/
theorem c8_replace_unmarked_witness :
    Builder.ReplaceSection
        (runOps PostgresDialect
          [BOp.select [], BOp.fromT (str "users"), BOp.markSection (str "order")])
        (str "limit") (str " LIMIT 5") =
      (runOps PostgresDialect
        [BOp.select [], BOp.fromT (str "users"), BOp.markSection (str "order")],
       some ErrKind.sectionNotFound) :=
  c8_replace_unmarked PostgresDialect
    [BOp.select [], BOp.fromT (str "users"), BOp.markSection (str "order")]
    (str "limit") (str " LIMIT 5") (by decide)

/-! ### Claim C10 — `Args` returns a fresh copy -/

/-- C10: `Args` allocates a fresh slice and copies the builder's arguments
into it: the returned reference differs from the builder's own, its contents
equal the builder's arguments, writing any element of the returned slice
leaves the builder's slice unchanged, and a later `Args` call still returns
the original contents. -/
theorem c10_args_fresh_copy (h : List (List GoAny)) (r : Nat) (hr : r < h.length)
    (i : Nat) (v : GoAny) :
    (ArgsAlloc h r).2 ≠ r ∧
      heapRead (ArgsAlloc h r).1 (ArgsAlloc h r).2 = heapRead h r ∧
      heapRead (heapWrite (ArgsAlloc h r).1 (ArgsAlloc h r).2 i v) r = heapRead h r ∧
      heapRead
          (ArgsAlloc (heapWrite (ArgsAlloc h r).1 (ArgsAlloc h r).2 i v) r).1
          (ArgsAlloc (heapWrite (ArgsAlloc h r).1 (ArgsAlloc h r).2 i v) r).2 =
        heapRead h r := by
  have hne : h.length ≠ r := by omega
  have h2 : heapRead (ArgsAlloc h r).1 (ArgsAlloc h r).2 = heapRead h r := by
    simp [ArgsAlloc, heapRead, List.getD]
  have h3 : heapRead (heapWrite (ArgsAlloc h r).1 (ArgsAlloc h r).2 i v) r =
      heapRead h r := by
    simp only [ArgsAlloc, heapRead, heapWrite, List.getD, List.get?_eq_getElem?]
    rw [List.getElem?_set_ne hne]
    rw [List.getElem?_append, if_pos hr]
  refine ⟨hne, h2, h3, ?_⟩
  simp only [ArgsAlloc, heapRead, List.getD, List.get?_eq_getElem?] at h3 ⊢
  rw [List.getElem?_concat_length]
  simpa using h3

/-- Witness for `c10_args_fresh_copy` at a concrete heap. -/
theorem c10_args_fresh_copy_witness :
    (ArgsAlloc [[GoAny.intV 1]] 0).2 ≠ 0 ∧
      heapRead (ArgsAlloc [[GoAny.intV 1]] 0).1 (ArgsAlloc [[GoAny.intV 1]] 0).2 =
        heapRead [[GoAny.intV 1]] 0 ∧
      heapRead
          (heapWrite (ArgsAlloc [[GoAny.intV 1]] 0).1 (ArgsAlloc [[GoAny.intV 1]] 0).2 0
            (GoAny.intV 2)) 0 =
        heapRead [[GoAny.intV 1]] 0 ∧
      heapRead
          (ArgsAlloc
            (heapWrite (ArgsAlloc [[GoAny.intV 1]] 0).1 (ArgsAlloc [[GoAny.intV 1]] 0).2 0
              (GoAny.intV 2)) 0).1
          (ArgsAlloc
            (heapWrite (ArgsAlloc [[GoAny.intV 1]] 0).1 (ArgsAlloc [[GoAny.intV 1]] 0).2 0
              (GoAny.intV 2)) 0).2 =
        heapRead [[GoAny.intV 1]] 0 :=
  c10_args_fresh_copy [[GoAny.intV 1]] 0 (by decide) 0 (GoAny.intV 2)

/-! ### Claim C9 — bare flag options -/

/-- C9: `HasTagOption(tag, opt)` holds exactly when some semicolon-separated
segment of the tag trims to exactly `opt`; in particular a segment carrying a
value, such as `primary_key:true`, does not set the `primary_key` flag. -/
theorem c9_bare_flag_segments :
    (∀ tag opt : List Char,
        (HasTagOption tag opt = true ↔
          ∃ part ∈ splitOnChar ';' tag, trimSpace part = opt)) ∧
      HasTagOption (str "primary_key:true") (str "primary_key") = false := by
  constructor
  · intro tag opt
    unfold HasTagOption
    rw [List.any_eq_true]
    constructor
    · rintro ⟨p, hp, hpe⟩
      exact ⟨p, hp, by simpa using hpe⟩
    · rintro ⟨p, hp, hpe⟩
      exact ⟨p, hp, by simpa using hpe⟩
  · decide

/-- Witness applying `c9_bare_flag_segments` at a concrete tag. -/
theorem c9_bare_flag_segments_witness :
    HasTagOption (str "unique; index") (str "index") = true :=
  (c9_bare_flag_segments.1 (str "unique; index") (str "index")).mpr
    ⟨str " index", by decide, by decide⟩

/-! ### Claim C5 — `ToSnakeCase` versus the stated rule -/

theorem letter_cases (c : Char) (h : isAsciiLetter c = true) :
    (c.isLower = true ∧ c.isUpper = false) ∨ (c.isLower = false ∧ c.isUpper = true) := by
  unfold isAsciiLetter at h
  cases hl : c.isLower <;> cases hu : c.isUpper <;> simp_all

/-- Alignment of the `ToSnakeCase` loop with the amended rule: the builder
contents lag the rule's output by exactly the pending run-of-upper-case
insertion, applied by `fixRes`. -/
theorem toSnakeAux_align :
    ∀ (rem : List Char) (s2 s1 : Option Char) (i : Nat) (prevLower : Bool)
      (res : List Char),
      (∀ c ∈ rem, isAsciiLetter c = true) →
      optLetter s1 = true → optLetter s2 = true →
      prevLower = optIsLower s1 →
      (s1.isSome = true → 1 ≤ i) →
      ToSnakeCaseAux s2 s1 i prevLower res rem =
        fixRes s2 s1 i prevLower res rem ++ amendedSnakeAux i s1 rem := by
  intro rem
  induction rem with
  | nil =>
    intro s2 s1 i prevLower res _ _ _ _ _
    simp [ToSnakeCaseAux, fixRes, amendedSnakeAux]
  | cons c rest ih =>
    intro s2 s1 i prevLower res hrem hs1 hs2 hpl hsome
    have hc : isAsciiLetter c = true := hrem c (List.mem_cons_self _ _)
    have hrest : ∀ x ∈ rest, isAsciiLetter x = true := fun x hx =>
      hrem x (List.mem_cons_of_mem _ hx)
    simp only [ToSnakeCaseAux]
    rw [ih s1 (some c) (i + 1) c.isLower _ hrest (by simpa [optLetter] using hc) hs1
      rfl (by intro _; omega)]
    simp only [amendedSnakeAux]
    rw [show ∀ B U T : List Char, B ++ (U ++ (c.toLower :: T)) =
        (B ++ U ++ [c.toLower]) ++ T by intro B U T; simp]
    refine congrArg (· ++ amendedSnakeAux (i + 1) (some c) rest) ?_
    subst hpl
    clear ih hrem hs2
    rcases letter_cases c hc with ⟨hlow, hup⟩ | ⟨hlow, hup⟩ <;>
      rcases s1 with _ | p
    case cons.inl.intro.none =>
      cases rest with
      | nil =>
        simp [fixRes, optIsUpper, optIsLower, optToLower, hlow, hup]
      | cons n t =>
        rcases letter_cases n (hrest n (List.mem_cons_self _ _)) with
            ⟨hn1, hn2⟩ | ⟨hn1, hn2⟩ <;>
          simp [fixRes, optIsUpper, optIsLower, optToLower, hlow, hup, hn1, hn2]
    case cons.inl.intro.some =>
      have hi1 : 1 ≤ i := hsome (by simp)
      rcases letter_cases p (by simpa [optLetter] using hs1) with ⟨hp1, hp2⟩ | ⟨hp1, hp2⟩ <;>
        cases rest with
        | nil =>
          simp [fixRes, optIsUpper, optIsLower, optToLower, hlow, hup, hp1, hp2] <;>
            split_ifs <;> simp_all <;> omega
        | cons n t =>
          rcases letter_cases n (hrest n (List.mem_cons_self _ _)) with
              ⟨hn1, hn2⟩ | ⟨hn1, hn2⟩ <;>
            simp [fixRes, optIsUpper, optIsLower, optToLower, hlow, hup, hp1, hp2,
              hn1, hn2] <;>
            split_ifs <;> simp_all <;> omega
    case cons.inr.intro.none =>
      cases rest with
      | nil =>
        simp [fixRes, optIsUpper, optIsLower, optToLower, hlow, hup]
      | cons n t =>
        rcases letter_cases n (hrest n (List.mem_cons_self _ _)) with
            ⟨hn1, hn2⟩ | ⟨hn1, hn2⟩ <;>
          simp [fixRes, optIsUpper, optIsLower, optToLower, hlow, hup, hn1, hn2]
    case cons.inr.intro.some =>
      have hi1 : 1 ≤ i := hsome (by simp)
      rcases letter_cases p (by simpa [optLetter] using hs1) with ⟨hp1, hp2⟩ | ⟨hp1, hp2⟩ <;>
        cases rest with
        | nil =>
          simp [fixRes, optIsUpper, optIsLower, optToLower, hlow, hup, hp1, hp2] <;>
            split_ifs <;> simp_all
        | cons n t =>
          rcases letter_cases n (hrest n (List.mem_cons_self _ _)) with
              ⟨hn1, hn2⟩ | ⟨hn1, hn2⟩ <;>
            simp [fixRes, optIsUpper, optIsLower, optToLower, hlow, hup, hp1, hp2,
              hn1, hn2] <;>
            split_ifs <;> simp_all <;> omega

theorem ToSnakeCase_eq_amended (s : List Char)
    (h : ∀ c ∈ s, isAsciiLetter c = true) : ToSnakeCase s = amendedSnake s := by
  cases s with
  | nil => rfl
  | cons c rest =>
    unfold ToSnakeCase amendedSnake
    rw [if_neg (by simp)]
    rw [toSnakeAux_align (c :: rest) none none 0 false [] h rfl rfl rfl (by simp)]
    simp [fixRes, optIsUpper]

/-- C5, counterexample: `"ABc"` is made of ASCII letters, but
`ToSnakeCase "ABc" = "abc"` while the claim's rule inserts an underscore
before the last upper-case letter of the initial two-letter run, demanding
`"a_bc"`; the source's extra `i > 2` guard suppresses the underscore at the
start of the string. -/
theorem c5_counterexample :
    (∀ c ∈ str "ABc", isAsciiLetter c = true) ∧
      ToSnakeCase (str "ABc") ≠ claimSnake (str "ABc") :=
  ⟨by decide, by decide⟩

/-- C5, amended: for identifiers of ASCII letters, `ToSnakeCase` lower-cases
every letter, inserts an underscore before an upper-case letter following a
lower-case letter, and inserts the underscore before the last upper-case
letter of a run of two or more upper-case letters followed by a lower-case
letter — except that the run-of-upper-case underscore is dropped when it
would fall at position one, i.e. when the string begins with exactly two
upper-case letters followed by a lower-case one.  In particular
`ToSnakeCase("HTTPServer") = "http_server"` and
`ToSnakeCase("UserID") = "user_id"`. -/
theorem c5_amended :
    (∀ s : List Char, (∀ c ∈ s, isAsciiLetter c = true) →
        ToSnakeCase s = amendedSnake s) ∧
      ToSnakeCase (str "HTTPServer") = str "http_server" ∧
      ToSnakeCase (str "UserID") = str "user_id" :=
  ⟨ToSnakeCase_eq_amended, by decide, by decide⟩

/-- Witness applying `c5_amended` at a concrete identifier. -/
theorem c5_amended_witness :
    ToSnakeCase (str "UserID") = amendedSnake (str "UserID") :=
  c5_amended.1 (str "UserID") (by decide)

/-! ### Claim C3 — `SetFieldValues` and addressability -/

/-- C3, the code's actual behaviour: for every struct-typed record — pointer
passed or not — and every value mapping, `SetFieldValues` fails with
`NotAddressableError`.  The source checks `CanAddr` on the value returned by
`reflect.ValueOf` itself, which is never addressable, before dereferencing;
pointer-passed records therefore fail too, contradicting the claim (and the
spec), whose unknown-column and `IncompatibleTypeError` behaviours are
unreachable. -/
theorem c3_set_always_not_addressable (t : GoType) (x : GoValue)
    (values : List (List Char × GoValue))
    (h : ∃ mi, ExtractModelInfo t = Except.ok mi) :
    SetFieldValues t x values = some ErrKind.notAddressable := by
  obtain ⟨mi, hmi⟩ := h
  unfold SetFieldValues
  rw [hmi]
  rfl

/-- Witness: the failing input — a pointer-passed `U` record with a mapping
for its own column — still gets `NotAddressableError`. -/
theorem c3_set_always_not_addressable_witness :
    SetFieldValues tU (GoValue.ptrV vU) [(str "a", GoValue.prim (str "int") 7)] =
      some ErrKind.notAddressable :=
  c3_set_always_not_addressable tU (GoValue.ptrV vU)
    [(str "a", GoValue.prim (str "int") 7)] ⟨_, rfl⟩

/-! ### Claim C1 — embedded-field flattening -/

/-- C1, counterexample: in `Outer` the embedded `Inner` (declaring `N`) is
listed before the outer's own field `N`; the flattened list keeps BOTH
descriptors — the embedded one (index path `[0, 0]`) first — so the embedded
descriptor for `N` is not dropped, contradicting the claim's
"regardless of which of the two is declared first". -/
theorem c1_counterexample :
    ((ExtractFields outerEmbeddedFirst).toOption.getD []).map
        (fun fi => (fi.name, fi.index)) =
      [(str "N", [0, 0]), (str "N", [1])] := by
  decide

theorem GoField_eta :
    ∀ f : GoField, ∃ nm tg anon exp ty, f = GoField.mk nm tg anon exp ty
  | .mk nm tg anon exp ty => ⟨nm, tg, anon, exp, ty, rfl⟩

theorem buildFieldInfo_name :
    ∀ (f : GoField) (i : Nat), (buildFieldInfo f i).name = f.name
  | .mk _ none _ _ _, _ => rfl
  | .mk _ (some _) _ _ _, _ => rfl

theorem mapLookup_upsert_self {α : Type} (k : List Char) (v : α) :
    ∀ m : List (List Char × α), mapLookup (mapUpsert m k v) k = some v := by
  intro m
  induction m with
  | nil => simp [mapUpsert, mapLookup]
  | cons p rest ih =>
    obtain ⟨k0, v0⟩ := p
    simp only [mapUpsert]
    by_cases h0 : k0 = k
    · subst h0; simp [mapLookup]
    · simp [mapLookup, h0, ih]

/-- Compositionality of the extraction loop over a split of the field list. -/
theorem extractLoop_append :
    ∀ (l1 l2 : List GoField) (i : Nat) (m : List (List Char × FieldInfo)),
      extractLoop (fsOf (l1 ++ l2)) i m =
        ((extractLoop (fsOf l1) i m).1 ++
            (extractLoop (fsOf l2) (i + l1.length) (extractLoop (fsOf l1) i m).2).1,
          (extractLoop (fsOf l2) (i + l1.length) (extractLoop (fsOf l1) i m).2).2) := by
  intro l1
  induction l1 with
  | nil =>
    intro l2 i m
    simp [fsOf, extractLoop]
  | cons f rest ih =>
    intro l2 i m
    obtain ⟨nm, tg, anon, exp, ty, rfl⟩ := GoField_eta f
    have hi : i + 1 + rest.length = i + (rest.length + 1) := by omega
    simp only [List.cons_append, fsOf, extractLoop, List.append_eq]
    split_ifs with h1 h2 h3
    · rw [ih]
      simp [hi]
    · rw [ih]
      simp [hi]
    · rw [ih]
      simp [hi, List.append_assoc]
    · rw [ih]
      simp [hi]

/-- If the field map after an embedded merge has no entry for `N`, the merge
appended no field named `N` and the incoming map had no entry either. -/
theorem mergeEmbedded_lookup_none (N : List Char) :
    ∀ (efs : List FieldInfo) (i : Nat) (m : List (List Char × FieldInfo)),
      mapLookup (mergeEmbedded i efs m).2 N = none →
      (mergeEmbedded i efs m).1.filter (fun fi => fi.name == N) = [] ∧
        mapLookup m N = none := by
  intro efs
  induction efs with
  | nil => intro i m h; simpa [mergeEmbedded] using h
  | cons ef rest ih =>
    intro i m h
    simp only [mergeEmbedded] at h ⊢
    cases hl : mapLookup m ef.name with
    | some v =>
      simp only [hl] at h ⊢
      exact ih i m h
    | none =>
      simp only [hl] at h ⊢
      have hih := ih i (mapUpsert m ef.name { ef with index := i :: ef.index }) h
      by_cases hen : ef.name = N
      · exfalso
        rw [hen] at hih
        exact Option.noConfusion ((mapLookup_upsert_self _ _ _).symm.trans hih.2)
      · refine ⟨?_, ?_⟩
        · simp [hih.1, hen]
        · have h2 := hih.2
          rwa [mapLookup_upsert_ne ef.name N _ hen] at h2

/-- Once a name is present in the field map, an embedded merge appends no
field with that name and keeps the map entry intact. -/
theorem mergeEmbedded_keeps (N : List Char) (v : FieldInfo) :
    ∀ (efs : List FieldInfo) (i : Nat) (m : List (List Char × FieldInfo)),
      mapLookup m N = some v →
      (mergeEmbedded i efs m).1.filter (fun fi => fi.name == N) = [] ∧
        mapLookup (mergeEmbedded i efs m).2 N = some v := by
  intro efs
  induction efs with
  | nil => intro i m hm; simpa [mergeEmbedded] using hm
  | cons ef rest ih =>
    intro i m hm
    simp only [mergeEmbedded]
    cases hl : mapLookup m ef.name with
    | some w =>
      simp only [hl]
      exact ih i m hm
    | none =>
      simp only [hl]
      have hen : ef.name ≠ N := by
        intro he
        rw [he, hm] at hl
        exact Option.noConfusion hl
      have hm2 : mapLookup
          (mapUpsert m ef.name { ef with index := i :: ef.index }) N = some v := by
        rw [mapLookup_upsert_ne ef.name N _ hen]
        exact hm
      have hih := ih i _ hm2
      refine ⟨?_, hih.2⟩
      simp [hih.1, hen]

/-- If the final field map of an extraction run has no entry for `N`, the run
emitted no field named `N`, and the incoming map had no entry for `N`. -/
theorem extractLoop_lookup_none (N : List Char) :
    ∀ (l : List GoField) (i : Nat) (m : List (List Char × FieldInfo)),
      mapLookup (extractLoop (fsOf l) i m).2 N = none →
      (extractLoop (fsOf l) i m).1.filter (fun fi => fi.name == N) = [] ∧
        mapLookup m N = none := by
  intro l
  induction l with
  | nil => intro i m h; simpa [fsOf, extractLoop] using h
  | cons f rest ih =>
    intro i m h
    obtain ⟨nm, tg, anon, exp, ty, rfl⟩ := GoField_eta f
    simp only [fsOf, extractLoop] at h ⊢
    split_ifs at h ⊢ with h1 h2 h3
    · exact ih _ _ h
    · exact ih _ _ h
    · have hih := ih _ _ h
      have hm := mergeEmbedded_lookup_none N (extractEmbedded ty) i m hih.2
      refine ⟨?_, hm.2⟩
      simp [List.filter_append, hm.1, hih.1]
    · have hih := ih _ _ h
      have hfn : (buildFieldInfo (GoField.mk nm tg anon exp ty) i).name = nm :=
        buildFieldInfo_name _ _
      by_cases hen : nm = N
      · exfalso
        rw [hfn, hen] at hih
        exact Option.noConfusion ((mapLookup_upsert_self _ _ _).symm.trans hih.2)
      · rw [hfn] at hih
        refine ⟨?_, ?_⟩
        · have hpred :
              ((buildFieldInfo (GoField.mk nm tg anon exp ty) i).name == N) = false := by
            rw [hfn]
            exact beq_false_of_ne hen
          simp only [List.filter_cons, hpred, Bool.false_eq_true, if_false]
          rw [hfn]
          exact hih.1
        · have h2 := hih.2
          rwa [mapLookup_upsert_ne nm N _ hen] at h2

/-- Once a name is present in the field map, an extraction run over members
none of which is itself named `N` emits no further field named `N`. -/
theorem extractLoop_keeps (N : List Char) (v : FieldInfo) :
    ∀ (l : List GoField) (i : Nat) (m : List (List Char × FieldInfo)),
      mapLookup m N = some v → (∀ g ∈ l, g.name ≠ N) →
      (extractLoop (fsOf l) i m).1.filter (fun fi => fi.name == N) = [] := by
  intro l
  induction l with
  | nil => intro i m hm hl; simp [fsOf, extractLoop]
  | cons f rest ih =>
    intro i m hm hl
    obtain ⟨nm, tg, anon, exp, ty, rfl⟩ := GoField_eta f
    have hnm : nm ≠ N := by
      have hx := hl _ (List.mem_cons_self _ _)
      simpa [GoField.name] using hx
    have hrest : ∀ g ∈ rest, g.name ≠ N := fun g hg => hl g (List.mem_cons_of_mem _ hg)
    simp only [fsOf, extractLoop]
    split_ifs with h1 h2 h3
    · exact ih _ _ hm hrest
    · exact ih _ _ hm hrest
    · have hmerge := mergeEmbedded_keeps N v (extractEmbedded ty) i m hm
      simp only [List.filter_append, hmerge.1, List.nil_append]
      exact ih _ _ hmerge.2 hrest
    · have hfn : (buildFieldInfo (GoField.mk nm tg anon exp ty) i).name = nm :=
        buildFieldInfo_name _ _
      have hm2 : mapLookup
          (mapUpsert m (buildFieldInfo (GoField.mk nm tg anon exp ty) i).name
            (buildFieldInfo (GoField.mk nm tg anon exp ty) i)) N = some v := by
        rw [hfn, mapLookup_upsert_ne nm N _ hnm]
        exact hm
      have htail := ih (i + 1) _ hm2 hrest
      have hpred :
          ((buildFieldInfo (GoField.mk nm tg anon exp ty) i).name == N) = false := by
        rw [hfn]
        exact beq_false_of_ne hnm
      simp only [List.filter_cons, hpred, Bool.false_eq_true, if_false]
      exact htail

/-- C1, amended: when the outer type's own exported field named `N` is
declared before every member that could contribute `N` (no field named `N`
is produced by the members before it, and — as Go requires — no later member
is itself named `N`), the flattened field list contains exactly one
descriptor named `N`: the outer type's own, built at its declaration
position.  Every descriptor named `N` coming from later embedded members is
dropped.  (When the embedded member is declared first, both descriptors are
retained — see the counterexample.) -/
theorem c1_amended (tname : List Char) (pre post : List GoField) (nm : List Char)
    (tg : Option (List Char)) (ty : GoType) (N : List Char) (hname : nm = N)
    (hpre : mapLookup (extractLoop (fsOf pre) 0 []).2 N = none)
    (hpost : ∀ g ∈ post, g.name ≠ N) :
    ExtractFields (GoType.strukt tname (fsOf (pre ++ GoField.mk nm tg false true ty :: post))) =
      Except.ok (extractLoop (fsOf (pre ++ GoField.mk nm tg false true ty :: post)) 0 []).1 ∧
    (extractLoop (fsOf (pre ++ GoField.mk nm tg false true ty :: post)) 0 []).1.filter
        (fun fi => fi.name == N) =
      [buildFieldInfo (GoField.mk nm tg false true ty) pre.length] := by
  subst hname
  refine ⟨rfl, ?_⟩
  rw [extractLoop_append pre (GoField.mk nm tg false true ty :: post) 0 []]
  have hprefix := extractLoop_lookup_none nm pre 0 [] hpre
  simp only [List.filter_append, hprefix.1, List.nil_append, Nat.zero_add]
  simp only [fsOf, extractLoop]
  rw [if_neg (by simp), if_neg (by simp)]
  have hfn : (buildFieldInfo (GoField.mk nm tg false true ty) pre.length).name = nm :=
    buildFieldInfo_name _ _
  have hm2 : mapLookup
      (mapUpsert (extractLoop (fsOf pre) 0 []).2
        (buildFieldInfo (GoField.mk nm tg false true ty) pre.length).name
        (buildFieldInfo (GoField.mk nm tg false true ty) pre.length)) nm =
      some (buildFieldInfo (GoField.mk nm tg false true ty) pre.length) := by
    rw [hfn]
    exact mapLookup_upsert_self _ _ _
  have htail := extractLoop_keeps nm
    (buildFieldInfo (GoField.mk nm tg false true ty) pre.length) post
    (pre.length + 1) _ hm2 hpost
  have hpred :
      ((buildFieldInfo (GoField.mk nm tg false true ty) pre.length).name == nm) =
        true := by
    rw [hfn]
    exact beq_self_eq_true nm
  simp only [List.filter_cons, hpred, if_true]
  rw [htail]

/-- Witness for `c1_amended`: `struct Outer2 { N string; Inner }` (the outer
field declared first) keeps only the outer's descriptor for `N`. -/
theorem c1_amended_witness :
    ExtractFields (GoType.strukt (str "Outer2")
        (fsOf ([] ++ GoField.mk (str "N") none false true (.prim (str "string")) ::
          [GoField.mk (str "Inner") none true true innerN]))) =
      Except.ok (extractLoop (fsOf ([] ++
        GoField.mk (str "N") none false true (.prim (str "string")) ::
          [GoField.mk (str "Inner") none true true innerN])) 0 []).1 ∧
    (extractLoop (fsOf ([] ++
        GoField.mk (str "N") none false true (.prim (str "string")) ::
          [GoField.mk (str "Inner") none true true innerN])) 0 []).1.filter
        (fun fi => fi.name == str "N") =
      [buildFieldInfo (GoField.mk (str "N") none false true (.prim (str "string")))
        ([] : List GoField).length] :=
  c1_amended (str "Outer2") [] [GoField.mk (str "Inner") none true true innerN]
    (str "N") none (.prim (str "string")) (str "N") rfl (by decide) (by decide)

/-! ### Claim C7 — cold versus warm extraction -/

/-- The field map built by an embedded merge is the fold of its appended
fields over the incoming map. -/
theorem mergeEmbedded_map_eq :
    ∀ (efs : List FieldInfo) (i : Nat) (m : List (List Char × FieldInfo)),
      (mergeEmbedded i efs m).2 =
        (mergeEmbedded i efs m).1.foldl (fun mm fi => mapUpsert mm fi.name fi) m := by
  intro efs
  induction efs with
  | nil => intro i m; simp [mergeEmbedded]
  | cons ef rest ih =>
    intro i m
    simp only [mergeEmbedded]
    cases hl : mapLookup m ef.name with
    | some v =>
      simp only [hl]
      exact ih i m
    | none =>
      simp only [hl, List.foldl_cons]
      exact ih i (mapUpsert m ef.name { ef with index := i :: ef.index })

/-- The field map built by the extraction loop is the fold of its emitted
fields over the incoming map. -/
theorem extractLoop_map_eq :
    ∀ (l : List GoField) (i : Nat) (m : List (List Char × FieldInfo)),
      (extractLoop (fsOf l) i m).2 =
        (extractLoop (fsOf l) i m).1.foldl (fun mm fi => mapUpsert mm fi.name fi) m := by
  intro l
  induction l with
  | nil => intro i m; simp [fsOf, extractLoop]
  | cons f rest ih =>
    intro i m
    obtain ⟨nm, tg, anon, exp, ty, rfl⟩ := GoField_eta f
    simp only [fsOf, extractLoop]
    split_ifs with h1 h2 h3
    · exact ih _ _
    · exact ih _ _
    · rw [List.foldl_append, ← mergeEmbedded_map_eq]
      exact ih _ _
    · simp only [List.foldl_cons]
      exact ih _ _

theorem mapUpsert_of_lookup_none {α : Type} (k : List Char) (v : α) :
    ∀ m : List (List Char × α), mapLookup m k = none →
      mapUpsert m k v = m ++ [(k, v)] := by
  intro m
  induction m with
  | nil => intro _; rfl
  | cons p rest ih =>
    obtain ⟨k0, v0⟩ := p
    intro h
    simp only [mapLookup] at h
    by_cases h0 : k0 = k
    · simp [h0] at h
    · simp only [mapUpsert, if_neg h0, List.cons_append]
      rw [ih (by simpa [h0] using h)]

theorem mapLookup_append_none {α : Type} (k : List Char) :
    ∀ (m1 m2 : List (List Char × α)), mapLookup m1 k = none →
      mapLookup (m1 ++ m2) k = mapLookup m2 k := by
  intro m1
  induction m1 with
  | nil => intro m2 _; rfl
  | cons p rest ih =>
    obtain ⟨k0, v0⟩ := p
    intro m2 h
    simp only [mapLookup] at h
    by_cases h0 : k0 = k
    · simp [h0] at h
    · simp only [List.cons_append, mapLookup, if_neg h0]
      exact ih m2 (by simpa [h0] using h)

/-- A fold of upserts over pairwise-distinct fresh names is an append. -/
theorem foldl_upsert_append :
    ∀ (out : List FieldInfo) (m : List (List Char × FieldInfo)),
      (∀ fi ∈ out, mapLookup m fi.name = none) →
      (out.map FieldInfo.name).Nodup →
      out.foldl (fun mm fi => mapUpsert mm fi.name fi) m =
        m ++ out.map (fun fi => (fi.name, fi)) := by
  intro out
  induction out with
  | nil => intro m _ _; simp
  | cons fi rest ih =>
    intro m hnone hnd
    simp only [List.foldl_cons, List.map_cons]
    rw [mapUpsert_of_lookup_none fi.name fi m (hnone fi (List.mem_cons_self _ _))]
    have hnd2 : (∀ x ∈ rest, ¬FieldInfo.name x = fi.name) ∧
        (rest.map FieldInfo.name).Nodup := by simpa using hnd
    have hrest : ∀ g ∈ rest, mapLookup (m ++ [(fi.name, fi)]) g.name = none := by
      intro g hg
      rw [mapLookup_append_none _ _ _ (hnone g (List.mem_cons_of_mem _ hg))]
      have hgname : fi.name ≠ g.name := fun he => hnd2.1 g hg he.symm
      simp [mapLookup, hgname]
    rw [ih (m ++ [(fi.name, fi)]) hrest hnd2.2]
    simp

theorem addFieldToInfo_primaryKey (info : ModelInfo) (f : FieldInfo) :
    (addFieldToInfo info f).primaryKey =
      info.primaryKey ++ (if f.isPrimaryKey = true then [f.name] else []) := by
  simp only [addFieldToInfo]
  split_ifs <;> simp

theorem addFieldToInfo_autoIncrement (info : ModelInfo) (f : FieldInfo) :
    (addFieldToInfo info f).autoIncrement =
      if f.isAutoIncrement = true then f.name else info.autoIncrement := by
  simp only [addFieldToInfo]
  split_ifs <;> simp

theorem addFieldToInfo_fields (info : ModelInfo) (f : FieldInfo) :
    (addFieldToInfo info f).fields = mapUpsert info.fields f.name f := by
  simp only [addFieldToInfo]
  split_ifs <;> rfl

theorem foldl_add_primaryKey :
    ∀ (l : List FieldInfo) (info : ModelInfo),
      (l.foldl addFieldToInfo info).primaryKey =
        info.primaryKey ++ (l.filter (fun f => f.isPrimaryKey)).map FieldInfo.name := by
  intro l
  induction l with
  | nil => intro info; simp
  | cons f rest ih =>
    intro info
    simp only [List.foldl_cons, List.filter_cons]
    rw [ih, addFieldToInfo_primaryKey]
    by_cases hf : f.isPrimaryKey = true
    · simp [hf]
    · simp [hf]

theorem foldl_add_ai_empty :
    ∀ (l : List FieldInfo) (info : ModelInfo),
      l.filter (fun f => f.isAutoIncrement) = [] →
      (l.foldl addFieldToInfo info).autoIncrement = info.autoIncrement := by
  intro l
  induction l with
  | nil => intro info _; rfl
  | cons f rest ih =>
    intro info hf
    simp only [List.filter_cons] at hf
    by_cases haif : f.isAutoIncrement = true
    · simp [haif] at hf
    · simp only [List.foldl_cons]
      rw [ih _ (by simpa [haif] using hf)]
      rw [addFieldToInfo_autoIncrement]
      simp [haif]

theorem foldl_add_ai_single :
    ∀ (l : List FieldInfo) (g : FieldInfo) (info : ModelInfo),
      l.filter (fun f => f.isAutoIncrement) = [g] →
      (l.foldl addFieldToInfo info).autoIncrement = g.name := by
  intro l
  induction l with
  | nil => intro g info h; simp at h
  | cons f rest ih =>
    intro g info hf
    simp only [List.filter_cons] at hf
    by_cases haif : f.isAutoIncrement = true
    · simp only [haif, if_true] at hf
      obtain ⟨hfg, hrest0⟩ := List.cons_eq_cons.mp hf
      simp only [List.foldl_cons]
      rw [foldl_add_ai_empty rest _ hrest0]
      rw [addFieldToInfo_autoIncrement]
      rw [hfg] at haif ⊢
      simp [haif]
    · simp only [haif] at hf
      simp only [List.foldl_cons]
      rw [ih g _ (by simpa [haif] using hf)]

theorem foldl_add_fields :
    ∀ (l : List FieldInfo) (info : ModelInfo),
      (l.foldl addFieldToInfo info).fields =
        l.foldl (fun mm f => mapUpsert mm f.name f) info.fields := by
  intro l
  induction l with
  | nil => intro info; rfl
  | cons f rest ih =>
    intro info
    simp only [List.foldl_cons]
    rw [ih, addFieldToInfo_fields]

theorem modelInfoFrom_primaryKey (tname : List Char) (fs : GoFields)
    (fields : List FieldInfo) :
    (modelInfoFrom tname fs fields).primaryKey =
      (fields.filter (fun f => f.isPrimaryKey)).map FieldInfo.name := by
  unfold modelInfoFrom
  rw [foldl_add_primaryKey]
  simp

theorem modelInfoFrom_fields (tname : List Char) (fs : GoFields)
    (fields : List FieldInfo) (hnd : (fields.map FieldInfo.name).Nodup) :
    (modelInfoFrom tname fs fields).fields =
      fields.map (fun fi => (fi.name, fi)) := by
  unfold modelInfoFrom
  rw [foldl_add_fields]
  rw [foldl_upsert_append fields [] (by intro fi _; rfl) hnd]
  simp

/-- C7, amended: for any struct type whose flattened field names are pairwise
distinct and which has at most one auto-increment field, the warm (cached)
extraction — whatever order Go's map iteration produces — yields exactly the
cold field list up to permutation, and the assembled entity descriptors agree
on the field map, the set of column names, the set of primary-key members and
the auto-increment designation (the primary-key list may be reordered, which
is why the counterexample drops the distinctness hypothesis). -/
theorem c7_amended (tname : List Char) (l : List GoField) (warm : List FieldInfo)
    (hdist : ((extractLoop (fsOf l) 0 []).1.map FieldInfo.name).Nodup)
    (hai : ((extractLoop (fsOf l) 0 []).1.filter
        (fun fi => fi.isAutoIncrement)).length ≤ 1)
    (hwarm : warm.Perm
      ((fieldCacheEntry (GoType.strukt tname (fsOf l))).map Prod.snd)) :
    (fieldCacheEntry (GoType.strukt tname (fsOf l))).map Prod.snd =
        (extractLoop (fsOf l) 0 []).1 ∧
      warm.Perm (extractLoop (fsOf l) 0 []).1 ∧
      (modelInfoFrom tname (fsOf l) warm).fields.Perm
        (modelInfoFrom tname (fsOf l) (extractLoop (fsOf l) 0 []).1).fields ∧
      ((modelInfoFrom tname (fsOf l) warm).fields.map (fun p => p.2.dbName)).Perm
        ((modelInfoFrom tname (fsOf l)
          (extractLoop (fsOf l) 0 []).1).fields.map (fun p => p.2.dbName)) ∧
      (modelInfoFrom tname (fsOf l) warm).primaryKey.Perm
        (modelInfoFrom tname (fsOf l) (extractLoop (fsOf l) 0 []).1).primaryKey ∧
      (modelInfoFrom tname (fsOf l) warm).autoIncrement =
        (modelInfoFrom tname (fsOf l) (extractLoop (fsOf l) 0 []).1).autoIncrement := by
  have hcache : (fieldCacheEntry (GoType.strukt tname (fsOf l))).map Prod.snd =
      (extractLoop (fsOf l) 0 []).1 := by
    show ((extractLoop (fsOf l) 0 []).2).map Prod.snd = (extractLoop (fsOf l) 0 []).1
    rw [extractLoop_map_eq]
    rw [foldl_upsert_append _ [] (by intro fi _; rfl) hdist]
    simp only [List.nil_append, List.map_map]
    show List.map id (extractLoop (fsOf l) 0 []).1 = (extractLoop (fsOf l) 0 []).1
    exact List.map_id _
  have hperm : warm.Perm (extractLoop (fsOf l) 0 []).1 := by
    rw [hcache] at hwarm
    exact hwarm
  have hndwarm : (warm.map FieldInfo.name).Nodup :=
    ((hperm.map FieldInfo.name).nodup_iff).mpr hdist
  refine ⟨hcache, hperm, ?_, ?_, ?_, ?_⟩
  · rw [modelInfoFrom_fields tname (fsOf l) warm hndwarm,
      modelInfoFrom_fields tname (fsOf l) _ hdist]
    exact hperm.map _
  · rw [modelInfoFrom_fields tname (fsOf l) warm hndwarm,
      modelInfoFrom_fields tname (fsOf l) _ hdist]
    rw [List.map_map, List.map_map]
    exact hperm.map _
  · rw [modelInfoFrom_primaryKey, modelInfoFrom_primaryKey]
    exact (hperm.filter _).map _
  · have hfperm := hperm.filter (fun fi => fi.isAutoIncrement)
    cases hfe : (extractLoop (fsOf l) 0 []).1.filter (fun fi => fi.isAutoIncrement) with
    | nil =>
      rw [hfe] at hfperm
      have hwe := List.perm_nil.mp hfperm
      unfold modelInfoFrom
      rw [foldl_add_ai_empty _ _ hwe, foldl_add_ai_empty _ _ hfe]
    | cons g t =>
      cases t with
      | nil =>
        rw [hfe] at hfperm
        have hwe : warm.filter (fun fi => fi.isAutoIncrement) = [g] := by
          cases hx : warm.filter (fun fi => fi.isAutoIncrement) with
          | nil =>
            rw [hx] at hfperm
            exact absurd hfperm.symm (by simp)
          | cons g2 t2 =>
            rw [hx] at hfperm
            have hlen := hfperm.length_eq
            simp at hlen
            subst hlen
            have := hfperm.mem_iff.mp (List.mem_cons_self g2 [])
            simp at this
            rw [this]
        unfold modelInfoFrom
        rw [foldl_add_ai_single _ _ _ hwe, foldl_add_ai_single _ _ _ hfe]
      | cons g2 t2 =>
        rw [hfe] at hai
        simp at hai

/-- C7, counterexample: for `OuterPK` (embedded `InnerPK` declaring a
primary-key field `N`, outer also declaring `N`), cold extraction reports
primary key `["N"]` while warm (cache-served) extraction reports no primary
key at all — the cache map deduplicates by name, keeping the outer's
non-key descriptor. -/
theorem c7_counterexample :
    (ExtractModelInfo outerPK).toOption.map ModelInfo.primaryKey =
        some [str "N"] ∧
      (ExtractModelInfoWarm outerPK).toOption.map ModelInfo.primaryKey =
        some ([] : List (List Char)) :=
  ⟨by decide, by decide⟩

/-- Witness applying `c7_amended` at a concrete one-field struct. -/
theorem c7_amended_witness :
    (modelInfoFrom (str "W")
          (fsOf [GoField.mk (str "A") none false true (GoType.prim (str "int"))])
          ((fieldCacheEntry (GoType.strukt (str "W")
            (fsOf [GoField.mk (str "A") none false true
              (GoType.prim (str "int"))]))).map Prod.snd)).autoIncrement =
      (modelInfoFrom (str "W")
          (fsOf [GoField.mk (str "A") none false true (GoType.prim (str "int"))])
          (extractLoop
            (fsOf [GoField.mk (str "A") none false true (GoType.prim (str "int"))])
            0 []).1).autoIncrement :=
  (c7_amended (str "W")
      [GoField.mk (str "A") none false true (GoType.prim (str "int"))]
      ((fieldCacheEntry (GoType.strukt (str "W")
        (fsOf [GoField.mk (str "A") none false true
          (GoType.prim (str "int"))]))).map Prod.snd)
      (by decide) (by decide) (List.Perm.refl _)).2.2.2.2.2

/-! ### Claim C4 — `GetFieldValues` -/

/-- C4, counterexample: in `T3` (field `A` tagged `readonly`, field `B`
tagged `writeonly`), the extracted value map is exactly `{"b" ↦ 2}` — the
read-only field is skipped and the write-only field is included — while
field `A` is neither ignored nor write-only, so under the claim the column
`"a"` would have to be a key. -/
theorem c4_counterexample :
    GetFieldValues t3 v3 [] = Res.ok [(str "b", GoValue.prim (str "int") 2)] ∧
      ((ExtractModelInfo t3).toOption.map (fun mi =>
        (mapLookup mi.fields (str "A")).map
          (fun fi => (fi.dbName, fi.isIgnored, fi.isWriteOnly)))) =
        some (some (str "a", false, false)) :=
  ⟨rfl, by decide⟩

theorem mapLookup_upsert {α : Type} (m : List (List Char × α)) (k k' : List Char)
    (v : α) :
    mapLookup (mapUpsert m k v) k' = if k = k' then some v else mapLookup m k' := by
  by_cases h : k = k'
  · subst h
    rw [if_pos rfl]
    exact mapLookup_upsert_self k v m
  · rw [if_neg h]
    exact mapLookup_upsert_ne k k' v h m

/-- Content of the `GetFieldValues` loop: on distinct column names with
successful navigation, the resulting map holds exactly the kept fields'
values over the incoming accumulator. -/
theorem getFieldValuesLoop_spec (mv : GoValue) (only : List (List Char)) :
    ∀ (fields : List (List Char × FieldInfo)) (acc : List (List Char × GoValue)),
      (∀ p ∈ fields, (FieldByIndex mv p.2.index).isSome = true) →
      (fields.map (fun p => p.2.dbName)).Nodup →
      (∀ p ∈ fields, mapLookup acc p.2.dbName = none) →
      ∃ m, getFieldValuesLoop mv only fields acc = some m ∧
        ∀ (dbn : List Char) (w : GoValue),
          mapLookup m dbn = some w ↔
            (mapLookup acc dbn = some w ∨
              ∃ p ∈ fields,
                p.2.isIgnored = false ∧ p.2.isReadOnly = false ∧
                (only.length = 0 ∨ only.contains p.1 = true) ∧
                p.2.dbName = dbn ∧ FieldByIndex mv p.2.index = some w) := by
  intro fields
  induction fields with
  | nil =>
    intro acc _ _ _
    refine ⟨acc, rfl, ?_⟩
    intro dbn w
    constructor
    · exact Or.inl
    · rintro (h | ⟨p, hp, _⟩)
      · exact h
      · exact absurd hp (List.not_mem_nil p)
  | cons q rest ih =>
    intro acc hnav hnd hacc
    obtain ⟨nm, fi⟩ := q
    have hnavr : ∀ p ∈ rest, (FieldByIndex mv p.2.index).isSome = true :=
      fun p hp => hnav p (List.mem_cons_of_mem _ hp)
    have hnds : (rest.map (fun p => p.2.dbName)).Nodup ∧
        ∀ p ∈ rest, p.2.dbName ≠ fi.dbName := by
      rw [List.map_cons, List.nodup_cons] at hnd
      exact ⟨hnd.2, fun p hp he => hnd.1 (List.mem_map.mpr ⟨p, hp, he⟩)⟩
    simp only [getFieldValuesLoop]
    by_cases h1 : fi.isIgnored = true ∨ fi.isReadOnly = true
    · rw [if_pos h1]
      obtain ⟨m, hm, hiff⟩ := ih acc hnavr hnds.1
        (fun p hp => hacc p (List.mem_cons_of_mem _ hp))
      refine ⟨m, hm, ?_⟩
      intro dbn w
      rw [hiff dbn w]
      constructor
      · rintro (h | ⟨p, hp, hps⟩)
        · exact Or.inl h
        · exact Or.inr ⟨p, List.mem_cons_of_mem _ hp, hps⟩
      · rintro (h | ⟨p, hp, hig, hro, honly, hdbp, hnavp⟩)
        · exact Or.inl h
        · rcases List.mem_cons.mp hp with heq | hmem
          · exfalso
            subst heq
            rcases h1 with hx | hx
            · rw [hig] at hx; exact Bool.noConfusion hx
            · rw [hro] at hx; exact Bool.noConfusion hx
          · exact Or.inr ⟨p, hmem, hig, hro, honly, hdbp, hnavp⟩
    · rw [if_neg h1]
      by_cases h2 : 0 < only.length ∧ only.contains nm = false
      · rw [if_pos h2]
        obtain ⟨m, hm, hiff⟩ := ih acc hnavr hnds.1
          (fun p hp => hacc p (List.mem_cons_of_mem _ hp))
        refine ⟨m, hm, ?_⟩
        intro dbn w
        rw [hiff dbn w]
        constructor
        · rintro (h | ⟨p, hp, hps⟩)
          · exact Or.inl h
          · exact Or.inr ⟨p, List.mem_cons_of_mem _ hp, hps⟩
        · rintro (h | ⟨p, hp, hig, hro, honly, hdbp, hnavp⟩)
          · exact Or.inl h
          · rcases List.mem_cons.mp hp with heq | hmem
            · exfalso
              subst heq
              rcases honly with hx | hx
              · omega
              · rw [h2.2] at hx; exact Bool.noConfusion hx
            · exact Or.inr ⟨p, hmem, hig, hro, honly, hdbp, hnavp⟩
      · rw [if_neg h2]
        have hs := hnav (nm, fi) (List.mem_cons_self _ _)
        obtain ⟨w0, hw0⟩ := Option.isSome_iff_exists.mp hs
        simp only [hw0]
        have haccr : ∀ p ∈ rest,
            mapLookup (mapUpsert acc fi.dbName w0) p.2.dbName = none := by
          intro p hp
          rw [mapLookup_upsert]
          rw [if_neg (fun he => hnds.2 p hp he.symm)]
          exact hacc p (List.mem_cons_of_mem _ hp)
        obtain ⟨m, hm, hiff⟩ := ih (mapUpsert acc fi.dbName w0) hnavr hnds.1 haccr
        have hig0 : fi.isIgnored = false := by
          cases hb : fi.isIgnored with
          | false => rfl
          | true => exact absurd (Or.inl hb) h1
        have hro0 : fi.isReadOnly = false := by
          cases hb : fi.isReadOnly with
          | false => rfl
          | true => exact absurd (Or.inr hb) h1
        have honly0 : only.length = 0 ∨ only.contains nm = true := by
          rcases Nat.eq_zero_or_pos only.length with hz | hpos
          · exact Or.inl hz
          · cases hb : only.contains nm with
            | false => exact absurd ⟨hpos, hb⟩ h2
            | true => exact Or.inr rfl
        refine ⟨m, hm, ?_⟩
        intro dbn w
        rw [hiff dbn w, mapLookup_upsert]
        by_cases hdb : fi.dbName = dbn
        · rw [if_pos hdb]
          subst hdb
          constructor
          · rintro (h | ⟨p, hp, hig, hro, honly, hdbp, hnavp⟩)
            · injection h with h
              subst h
              exact Or.inr ⟨(nm, fi), List.mem_cons_self _ _, hig0, hro0, honly0,
                rfl, hw0⟩
            · exact absurd hdbp (hnds.2 p hp)
          · rintro (h | ⟨p, hp, hig, hro, honly, hdbp, hnavp⟩)
            · exfalso
              have hz := hacc (nm, fi) (List.mem_cons_self _ _)
              rw [hz] at h
              exact Option.noConfusion h
            · rcases List.mem_cons.mp hp with heq | hmem
              · subst heq
                rw [hw0] at hnavp
                injection hnavp with hnavp
                rw [hnavp]
                exact Or.inl rfl
              · exact absurd hdbp (hnds.2 p hmem)
        · rw [if_neg hdb]
          constructor
          · rintro (h | ⟨p, hp, hps⟩)
            · exact Or.inl h
            · exact Or.inr ⟨p, List.mem_cons_of_mem _ hp, hps⟩
          · rintro (h | ⟨p, hp, hig, hro, honly, hdbp, hnavp⟩)
            · exact Or.inl h
            · rcases List.mem_cons.mp hp with heq | hmem
              · exfalso
                subst heq
                exact hdb hdbp
              · exact Or.inr ⟨p, hmem, hig, hro, honly, hdbp, hnavp⟩

theorem contains_iff_mem (a : List Char) (ll : List (List Char)) :
    ll.contains a = true ↔ a ∈ ll := by
  show ll.elem a = true ↔ a ∈ ll
  rw [List.elem_eq_mem]
  exact decide_eq_true_iff

/-- C4, amended: for a struct record with pairwise-distinct member and column
names and a value shaped like its type, `GetFieldValues` succeeds and
returns a mapping whose keys are exactly the column names of the fields that
are neither ignored nor read-only (not write-only, as the claim said),
intersected with `onlyFields` when given, each mapped to the record's current
value for that field. -/
theorem c4_amended (tname : List Char) (l : List GoField) (x : GoValue)
    (only : List (List Char))
    (hnames : ((extractLoop (fsOf l) 0 []).1.map FieldInfo.name).Nodup)
    (hdbs : ((extractLoop (fsOf l) 0 []).1.map FieldInfo.dbName).Nodup)
    (hnav : ∀ fi ∈ (extractLoop (fsOf l) 0 []).1,
      (FieldByIndex (IndirectValue x) fi.index).isSome = true) :
    ∃ m, GetFieldValues (GoType.strukt tname (fsOf l)) x only = Res.ok m ∧
      ∀ (dbn : List Char) (w : GoValue),
        mapLookup m dbn = some w ↔
          ∃ fi ∈ (extractLoop (fsOf l) 0 []).1,
            fi.isIgnored = false ∧ fi.isReadOnly = false ∧
            (only = [] ∨ fi.name ∈ only) ∧
            fi.dbName = dbn ∧ FieldByIndex (IndirectValue x) fi.index = some w := by
  have hnav2 : ∀ p ∈ (extractLoop (fsOf l) 0 []).1.map (fun fi => (fi.name, fi)),
      (FieldByIndex (IndirectValue x) p.2.index).isSome = true := by
    intro p hp
    obtain ⟨fi, hfi, rfl⟩ := List.mem_map.mp hp
    exact hnav fi hfi
  have hnd2 : (((extractLoop (fsOf l) 0 []).1.map (fun fi => (fi.name, fi))).map
      (fun p => p.2.dbName)).Nodup := by
    rw [List.map_map]
    exact hdbs
  obtain ⟨m, hm, hiff⟩ := getFieldValuesLoop_spec (IndirectValue x) only
    ((extractLoop (fsOf l) 0 []).1.map (fun fi => (fi.name, fi))) []
    hnav2 hnd2 (fun p _ => rfl)
  refine ⟨m, ?_, ?_⟩
  · show (match getFieldValuesLoop (IndirectValue x) only
        (modelInfoFrom tname (fsOf l) (extractLoop (fsOf l) 0 []).1).fields [] with
      | some mm => Res.ok mm
      | none => Res.panics) = Res.ok m
    rw [modelInfoFrom_fields tname (fsOf l) _ hnames]
    rw [hm]
  · intro dbn w
    rw [hiff dbn w]
    constructor
    · rintro (h | ⟨p, hp, hig, hro, honly, hdbp, hnavp⟩)
      · exact absurd h (by simp [mapLookup])
      · obtain ⟨fi, hfi, rfl⟩ := List.mem_map.mp hp
        refine ⟨fi, hfi, hig, hro, ?_, hdbp, hnavp⟩
        rcases honly with hz | hc
        · exact Or.inl (List.length_eq_zero.mp hz)
        · exact Or.inr ((contains_iff_mem _ _).mp hc)
    · rintro ⟨fi, hfi, hig, hro, honly, hdbp, hnavp⟩
      refine Or.inr ⟨(fi.name, fi), List.mem_map.mpr ⟨fi, hfi, rfl⟩, hig, hro, ?_,
        hdbp, hnavp⟩
      rcases honly with hz | hmem
      · exact Or.inl (by rw [hz]; rfl)
      · exact Or.inr ((contains_iff_mem _ _).mpr hmem)

/-- Witness applying `c4_amended` at the record `T3` with value `v3`. -/
theorem c4_amended_witness :
    ∃ m, GetFieldValues (GoType.strukt (str "T3")
        (fsOf [GoField.mk (str "A") (some (str "readonly")) false true
            (GoType.prim (str "int")),
          GoField.mk (str "B") (some (str "writeonly")) false true
            (GoType.prim (str "int"))])) v3 [] = Res.ok m ∧
      ∀ (dbn : List Char) (w : GoValue),
        mapLookup m dbn = some w ↔
          ∃ fi ∈ (extractLoop (fsOf [GoField.mk (str "A") (some (str "readonly"))
              false true (GoType.prim (str "int")),
            GoField.mk (str "B") (some (str "writeonly")) false true
              (GoType.prim (str "int"))]) 0 []).1,
            fi.isIgnored = false ∧ fi.isReadOnly = false ∧
            (([] : List (List Char)) = [] ∨ fi.name ∈ ([] : List (List Char))) ∧
            fi.dbName = dbn ∧ FieldByIndex (IndirectValue v3) fi.index = some w :=
  c4_amended (str "T3")
    [GoField.mk (str "A") (some (str "readonly")) false true (GoType.prim (str "int")),
     GoField.mk (str "B") (some (str "writeonly")) false true (GoType.prim (str "int"))]
    v3 [] (by decide) (by decide) (by decide)

end Origami
